import Mathlib

/-!
# Physical page allocator (`kernel/kalloc.c`)

A shallow embedding of the per-CPU free-list allocator: `kfree`, `kalloc`,
`freerange` and `kinit`, over a byte-addressed memory in which a free page
stores the link to the next free page in its first eight bytes.

Addresses and pointers are natural numbers; the places where the C code does
64-bit arithmetic on them (`PGROUNDUP`, `p + PGSIZE`) reduce modulo `2^64`.
The null pointer is `0`.
-/

namespace Kalloc

/-! ## Constants and layout -/

/-- Bytes per page ("Allocates whole 4096-byte pages"). -/
def PGSIZE : Nat := 4096

/-- Number of values of a 64-bit machine word. -/
def WORD : Nat := 2 ^ 64

/-- The constants that `kalloc.c` takes from headers and from the linker
script: the number of cores `NCPU`, the first address after the kernel
(`end` in the C source, a reserved word here) and the top of physical
memory `PHYSTOP`. -/
structure Layout where
  NCPU : Nat
  kend : Nat
  PHYSTOP : Nat

/-- Modelled from the spec: the macro `PGROUNDUP` of `riscv.h`, which
"rounds the start up to the next page boundary". The addition is done on a
`uint64`, so it wraps at `2^64`. -/
def PGROUNDUP (sz : Nat) : Nat :=
  ((sz + PGSIZE - 1) % WORD) / PGSIZE * PGSIZE

/-! ## Memory -/

/-- Byte-addressed physical memory. -/
abbrev Mem := Nat → Nat

/-- Modelled from the spec: `memset(dst, c, n)` of `string.c`, which
"overwrites the page's entire contents with a fixed byte pattern": the `n`
bytes from `dst` on become `c`. -/
def memset (m : Mem) (dst c n : Nat) : Mem :=
  fun a => if dst ≤ a ∧ a < dst + n then c else m a

/-- Read of the pointer-sized field `r->next` at address `r`
(eight bytes, little endian). -/
def readNext (m : Mem) (r : Nat) : Nat :=
  m r % 256 + 256 * (m (r + 1) % 256 + 256 * (m (r + 2) % 256 + 256 * (m (r + 3) % 256
    + 256 * (m (r + 4) % 256 + 256 * (m (r + 5) % 256 + 256 * (m (r + 6) % 256
    + 256 * (m (r + 7) % 256)))))))

/-- Write of `r->next = v`: the eight bytes at `r` receive the bytes of `v`. -/
def writeNext (m : Mem) (r v : Nat) : Mem :=
  fun a => if r ≤ a ∧ a < r + 8 then (v / 256 ^ (a - r)) % 256 else m a

/-! ## Allocator state -/

/-- The global `kmem[NCPU]` (list heads only; the locks carry no data) together
with the memory the list nodes live in. -/
structure Kmem where
  freelist : Nat → Nat
  mem : Mem

/-- Assignment `kmem[i].freelist = v`. -/
def setHead (f : Nat → Nat) (i v : Nat) : Nat → Nat :=
  fun j => if j = i then v else f j

/-- How a call that may reach `panic` ends; both cases carry the allocator
state at that point. -/
inductive Outcome where
  | done (s : Kmem)
  | panic (s : Kmem)

/-- Whether the call reached `panic`. -/
def Outcome.panicked : Outcome → Bool
  | Outcome.done _ => false
  | Outcome.panic _ => true

/-- The allocator state at the end of the call. -/
def Outcome.state : Outcome → Kmem
  | Outcome.done s => s
  | Outcome.panic s => s

/-! ## `kfree` -/

/-- The condition under which `kfree` does not call `panic`. -/
def validPage (L : Layout) (pa : Nat) : Prop :=
  pa % PGSIZE = 0 ∧ L.kend ≤ pa ∧ pa < L.PHYSTOP

instance (L : Layout) (pa : Nat) : Decidable (validPage L pa) := by
  unfold validPage; infer_instance

/-- The function `kfree(pa)` executed on the core whose `cpuid()` is `cid`: the
check, the fill with `1`, and the push on pool `cid`. -/
def kfree (L : Layout) (cid pa : Nat) (s : Kmem) : Outcome :=
  if pa % PGSIZE ≠ 0 ∨ pa < L.kend ∨ pa ≥ L.PHYSTOP then
    Outcome.panic s
  else
    let m1 := memset s.mem pa 1 PGSIZE
    let m2 := writeNext m1 pa (s.freelist cid)
    Outcome.done { freelist := setHead s.freelist cid pa, mem := m2 }

/-! ## `kalloc` -/

/-- One of the two `for` loops of `kalloc`, over the pool indices `is` in
order. The first component is the local `r`; `some` is an early `return`. -/
def kallocLoop (s : Kmem) : List Nat → Option (Nat × Kmem)
  | [] => none
  | i :: is =>
    let r := s.freelist i
    if r ≠ 0 then
      some (r, { freelist := setHead s.freelist i (readNext s.mem r),
                 mem := memset s.mem r 5 PGSIZE })
    else kallocLoop s is

/-- The function `kalloc()` executed on the core whose `cpuid()` is `cid`: the
returned pointer and the new state. The first loop runs `i = cid, ..., NCPU - 1`,
the second `i = 0, ..., cid - 1`. At the closing `return r` the local `r` holds
the last head read, which is null (a non-null one has returned already); with
`cid < NCPU` at least one head has been read. -/
def kalloc (L : Layout) (cid : Nat) (s : Kmem) : Nat × Kmem :=
  match kallocLoop s (List.range' cid (L.NCPU - cid)) with
  | some res => res
  | none =>
    match kallocLoop s (List.range cid) with
    | some res => res
    | none => (0, s)

/-! ## `freerange` and `kinit` -/

/-- The `for` loop of `freerange`. `k` counts the `kfree` calls made so far and
`cpus k` is the core identity that the `k`-th call reads. The result lists the
addresses passed to `kfree`, in call order, and tells how the loop ended;
`none` means that `fuel` iterations did not suffice. -/
def freerangeLoop (L : Layout) (cpus : Nat → Nat) (pa_end : Nat) :
    Nat → Nat → Nat → Kmem → Option (List Nat × Outcome)
  | 0, _, _, _ => none
  | fuel + 1, k, p, s =>
    if (p + PGSIZE) % WORD ≤ pa_end then
      match kfree L (cpus k) p s with
      | Outcome.panic s' => some ([p], Outcome.panic s')
      | Outcome.done s' =>
        match freerangeLoop L cpus pa_end fuel (k + 1) ((p + PGSIZE) % WORD) s' with
        | none => none
        | some (calls, out) => some (p :: calls, out)
    else some ([], Outcome.done s)

/-- The function `freerange(pa_start, pa_end)`: the start is rounded up with
`PGROUNDUP`, then the loop runs. -/
def freerange (L : Layout) (cpus : Nat → Nat) (fuel pa_start pa_end : Nat) (s : Kmem) :
    Option (List Nat × Outcome) :=
  freerangeLoop L cpus pa_end fuel 0 (PGROUNDUP pa_start) s

/-- The function `kinit()`: `initlock` touches the locks only, then the range
from the end of the kernel to `PHYSTOP` is freed page by page. -/
def kinit (L : Layout) (cpus : Nat → Nat) (fuel : Nat) (s : Kmem) :
    Option (List Nat × Outcome) :=
  freerange L cpus fuel L.kend L.PHYSTOP s

/-! ## Free lists as sequences -/

/-- The nodes reached from head pointer `h` by following `next` links are
exactly `l`, ending at the null pointer. -/
def chain (m : Mem) : Nat → List Nat → Prop
  | h, [] => h = 0
  | h, a :: l => h = a ∧ a ≠ 0 ∧ chain m (readNext m a) l

instance chainDecidable (m : Mem) : (h : Nat) → (l : List Nat) → Decidable (chain m h l)
  | h, [] => inferInstanceAs (Decidable (h = 0))
  | h, a :: l =>
    have := chainDecidable m (readNext m a) l
    inferInstanceAs (Decidable (h = a ∧ a ≠ 0 ∧ chain m (readNext m a) l))

/-- All free pages of the pool bank: the lists of pools `0, ..., NCPU - 1`
one after the other. -/
def allFree (L : Layout) (ls : Nat → List Nat) : List Nat :=
  (List.range L.NCPU).flatMap ls

/-- The pool bank `s` represents the free lists `ls`: pool `i` is the chain
`ls i`, every free page is page-aligned and in range, and no page is listed
twice, neither in one pool nor in two. -/
structure Rep (L : Layout) (s : Kmem) (ls : Nat → List Nat) : Prop where
  chains : ∀ i, i < L.NCPU → chain s.mem (s.freelist i) (ls i)
  valid : ∀ a, a ∈ allFree L ls → validPage L a
  nodup : (allFree L ls).Nodup

/-- Replacement of pool `i`'s list. -/
def setList (ls : Nat → List Nat) (i : Nat) (l : List Nat) : Nat → List Nat :=
  fun j => if j = i then l else ls j

/-- The state after the head of pool `j` has been popped by `kalloc`: the head
moves to the popped node's link and the popped page is filled with `5`. -/
def popHead (s : Kmem) (j : Nat) : Kmem :=
  { freelist := setHead s.freelist j (readNext s.mem (s.freelist j)),
    mem := memset s.mem (s.freelist j) 5 PGSIZE }

/-- The state after `kfree` has pushed `pa` on pool `cid`. -/
def pushHead (s : Kmem) (cid pa : Nat) : Kmem :=
  { freelist := setHead s.freelist cid pa,
    mem := writeNext (memset s.mem pa 1 PGSIZE) pa (s.freelist cid) }

/-- The order in which `kalloc` on core `cid` visits the pools. -/
def ring (L : Layout) (cid : Nat) : List Nat :=
  List.range' cid (L.NCPU - cid) ++ List.range cid

/-! ## Call sequences -/

/-- A sequence of `kfree` calls, each given as (core, address), stopping at
the first `panic`. -/
def kfreeSeq (L : Layout) : List (Nat × Nat) → Kmem → Outcome
  | [], s => Outcome.done s
  | c :: rest, s =>
    match kfree L c.1 c.2 s with
    | Outcome.done s' => kfreeSeq L rest s'
    | Outcome.panic s' => Outcome.panic s'

/-- A sequence of `kalloc` calls on the given cores: the returned pointers in
call order and the final state. -/
def kallocSeq (L : Layout) : List Nat → Kmem → List Nat × Kmem
  | [], s => ([], s)
  | cid :: rest, s =>
    ((kalloc L cid s).1 :: (kallocSeq L rest (kalloc L cid s).2).1,
      (kallocSeq L rest (kalloc L cid s).2).2)

/-- The `kfree` calls of a `freerange` loop, each with the core it runs on:
the `i`-th address of `calls` is freed on core `cpus (k + i)`. -/
def tagCalls (cpus : Nat → Nat) : Nat → List Nat → List (Nat × Nat)
  | _, [] => []
  | k, a :: l => (cpus k, a) :: tagCalls cpus (k + 1) l

/-- The `n` consecutive page addresses `p, p + PGSIZE, ...`, ascending. -/
def pages (p n : Nat) : List Nat :=
  (List.range n).map (fun i => p + i * PGSIZE)

/-- The pool bank that `kinit` leaves (the given state if the fuel runs out). -/
def kinitState (L : Layout) (cpus : Nat → Nat) (fuel : Nat) (s : Kmem) : Kmem :=
  match kinit L cpus fuel s with
  | some x => x.2.state
  | none => s

/-! ## Callers -/

/-- A call on the allocator after boot, with the core it runs on. -/
inductive Call where
  | alloc (cid : Nat)
  | free (cid pa : Nat)

/-- The pool bank together with the pages that are currently allocated:
returned by a `kalloc` and not passed to `kfree` since. -/
structure World where
  kmem : Kmem
  owned : List Nat

/-- One call: a non-null result of `kalloc` becomes allocated, a page
passed to `kfree` stops being allocated. -/
def step (L : Layout) (w : World) : Call → World
  | Call.alloc cid =>
    { kmem := (kalloc L cid w.kmem).2,
      owned := if (kalloc L cid w.kmem).1 = 0 then w.owned
               else (kalloc L cid w.kmem).1 :: w.owned }
  | Call.free cid pa =>
    { kmem := (kfree L cid pa w.kmem).state, owned := w.owned.erase pa }

/-- A sequence of calls. -/
def run (L : Layout) : World → List Call → World
  | w, [] => w
  | w, c :: cs => run L (step L w c) cs

/-- The contract of a single call: it runs on one of the `NCPU` cores, and
`kfree` is passed a page that is currently allocated. -/
def allowed (L : Layout) (w : World) : Call → Prop
  | Call.alloc cid => cid < L.NCPU
  | Call.free cid pa => cid < L.NCPU ∧ pa ∈ w.owned

instance (L : Layout) (w : World) : (c : Call) → Decidable (allowed L w c)
  | Call.alloc cid => inferInstanceAs (Decidable (cid < L.NCPU))
  | Call.free cid pa => inferInstanceAs (Decidable (cid < L.NCPU ∧ pa ∈ w.owned))

/-- Every call of the sequence keeps to the contract at the time it is made. -/
def permitted (L : Layout) : World → List Call → Prop
  | _, [] => True
  | w, c :: cs => allowed L w c ∧ permitted L (step L w c) cs

instance permittedDecidable (L : Layout) :
    (w : World) → (cs : List Call) → Decidable (permitted L w cs)
  | _, [] => inferInstanceAs (Decidable True)
  | w, c :: cs =>
    have := permittedDecidable L (step L w c) cs
    inferInstanceAs (Decidable (allowed L w c ∧ permitted L (step L w c) cs))

/-- Every page of `seeded` is either on exactly one free list, once, or
allocated, and the free lists hold nothing else. -/
def Inv (L : Layout) (seeded : List Nat) (w : World) : Prop :=
  ∃ ls, Rep L w.kmem ls ∧ (allFree L ls ++ w.owned).Perm seeded

/-- Requirements on the layout constants: the kernel does not end at the null
address, and a page starting below `PHYSTOP` ends within the 64-bit address
space. -/
def Layout.sane (L : Layout) : Prop :=
  0 < L.kend ∧ L.PHYSTOP + PGSIZE ≤ WORD

instance (L : Layout) : Decidable L.sane := by
  unfold Layout.sane; infer_instance

/-- Requirements on the layout constants for booting: the kernel ends within
physical memory, and the page after the last one that starts at or below
`PHYSTOP` still ends within the 64-bit address space. -/
def Layout.bootable (L : Layout) : Prop :=
  L.kend ≤ L.PHYSTOP ∧ L.PHYSTOP + 2 * PGSIZE ≤ WORD

instance (L : Layout) : Decidable L.bootable := by
  unfold Layout.bootable; infer_instance

/-- The number of whole pages between the end of the kernel and `PHYSTOP`. -/
def bootPages (L : Layout) : Nat :=
  (L.PHYSTOP - PGROUNDUP L.kend) / PGSIZE

/-! ## Lock events -/

/-- What a call does to pool `i`: it takes or gives back the pool's lock, or
it reads or writes the pool's list head `kmem[i].freelist`. -/
inductive Event where
  | acquire (i : Nat)
  | release (i : Nat)
  | readHead (i : Nat)
  | writeHead (i : Nat)

/-- A `for` loop of `kalloc` together with the events of its iterations, in
program order: `acquire`, the read of the head, the write of the head when the
head is not null, `release`. -/
def kallocLoopEv (s : Kmem) : List Nat → List Event × Option (Nat × Kmem)
  | [] => ([], none)
  | i :: is =>
    let r := s.freelist i
    if r ≠ 0 then
      ([Event.acquire i, Event.readHead i, Event.writeHead i, Event.release i],
        some (r, { freelist := setHead s.freelist i (readNext s.mem r),
                   mem := memset s.mem r 5 PGSIZE }))
    else
      ([Event.acquire i, Event.readHead i, Event.release i] ++ (kallocLoopEv s is).1,
        (kallocLoopEv s is).2)

/-- The function `kalloc()` together with the events of the call. -/
def kallocEv (L : Layout) (cid : Nat) (s : Kmem) : List Event × (Nat × Kmem) :=
  match kallocLoopEv s (List.range' cid (L.NCPU - cid)) with
  | (ev1, some res) => (ev1, res)
  | (ev1, none) =>
    match kallocLoopEv s (List.range cid) with
    | (ev2, some res) => (ev1 ++ ev2, res)
    | (ev2, none) => (ev1 ++ ev2, (0, s))

/-- The function `kfree(pa)` together with the events of the call: none before
the `panic`, otherwise `acquire`, the read of the head for `r->next`, the
write of the head, `release`. -/
def kfreeEv (L : Layout) (cid pa : Nat) (s : Kmem) : List Event × Outcome :=
  if pa % PGSIZE ≠ 0 ∨ pa < L.kend ∨ pa ≥ L.PHYSTOP then
    ([], Outcome.panic s)
  else
    let m1 := memset s.mem pa 1 PGSIZE
    let m2 := writeNext m1 pa (s.freelist cid)
    ([Event.acquire cid, Event.readHead cid, Event.writeHead cid, Event.release cid],
      Outcome.done { freelist := setHead s.freelist cid pa, mem := m2 })

/-- The lock held after event `e` when `held` is held before it, if the
event keeps to the discipline: a lock is acquired only while none is held, and
a head is read or written, and a lock released, only by the holder of that
pool's lock. -/
def lockStep (held : Option Nat) (e : Event) : Option (Option Nat) :=
  match held, e with
  | none, Event.acquire i => some (some i)
  | some j, Event.release i => if i = j then some none else none
  | some j, Event.readHead i => if i = j then some (some j) else none
  | some j, Event.writeHead i => if i = j then some (some j) else none
  | _, _ => none

/-- Every event of the sequence keeps to the discipline, and no lock is held
at the end. -/
def disciplined : Option Nat → List Event → Bool
  | held, [] => held.isNone
  | held, e :: es =>
    match lockStep held e with
    | some held' => disciplined held' es
    | none => false

/-- The pools whose lock the events acquire, in order. -/
def acquired : List Event → List Nat
  | [] => []
  | Event.acquire i :: es => i :: acquired es
  | _ :: es => acquired es

/-! ## Concrete configurations -/

/-- A layout with the usual xv6 constants: eight cores, physical memory up to
`0x88000000`, and a kernel image that ends at `0x80021000`. -/
def demoLayout : Layout := ⟨8, 0x80021000, 0x88000000⟩

/-- A layout with the same cores and top of memory whose kernel leaves two
whole pages, `0x87ffe000` and `0x87fff000`, and ends off a page boundary. -/
def smallLayout : Layout := ⟨8, 0x87ffd001, 0x88000000⟩

/-- The pool bank before `kinit`: `kmem` is zero-initialised. -/
def bootState : Kmem := ⟨fun _ => 0, fun _ => 0⟩

/-! ## Memory lemmas -/

theorem readNext_congr (m m' : Mem) (a : Nat)
    (h : ∀ i, i < 8 → m' (a + i) = m (a + i)) : readNext m' a = readNext m a := by
  have h0 := h 0 (by omega)
  simp only [Nat.add_zero] at h0
  simp only [readNext, h0, h 1 (by omega), h 2 (by omega), h 3 (by omega), h 4 (by omega),
    h 5 (by omega), h 6 (by omega), h 7 (by omega)]

theorem readNext_writeNext (m : Mem) (r v : Nat) (hv : v < WORD) :
    readNext (writeNext m r v) r = v := by
  unfold WORD at hv
  simp only [readNext, writeNext]
  simp
  omega

theorem readNext_lt (m : Mem) (a : Nat) : readNext m a < WORD := by
  unfold WORD readNext
  omega

/-- The link of a page is untouched by the fill and the link write that
`kfree` performs on another page. -/
theorem readNext_kfree_other (m : Mem) (pa v a : Nat) (hpa : pa % PGSIZE = 0)
    (ha : a % PGSIZE = 0) (hne : a ≠ pa) :
    readNext (writeNext (memset m pa 1 PGSIZE) pa v) a = readNext m a := by
  apply readNext_congr
  intro i hi
  unfold PGSIZE at hpa ha
  have h1 : ¬ (pa ≤ a + i ∧ a + i < pa + 8) := by omega
  have h2 : ¬ (pa ≤ a + i ∧ a + i < pa + PGSIZE) := by unfold PGSIZE; omega
  simp only [writeNext, memset, h1, h2, if_false]

/-- The link of a page is untouched by the fill that `kalloc` performs on
another page. -/
theorem readNext_kalloc_other (m : Mem) (r a : Nat) (hr : r % PGSIZE = 0)
    (ha : a % PGSIZE = 0) (hne : a ≠ r) :
    readNext (memset m r 5 PGSIZE) a = readNext m a := by
  apply readNext_congr
  intro i hi
  unfold PGSIZE at hr ha
  have h2 : ¬ (r ≤ a + i ∧ a + i < r + PGSIZE) := by unfold PGSIZE; omega
  simp only [memset, h2, if_false]

/-! ## Chain lemmas -/

theorem chain_congr (m m' : Mem) (l : List Nat) :
    ∀ h, chain m h l → (∀ a, a ∈ l → readNext m' a = readNext m a) → chain m' h l := by
  induction l with
  | nil => intro h hc _; exact hc
  | cons a l ih =>
    intro h hc hfr
    obtain ⟨h1, h2, h3⟩ := hc
    refine ⟨h1, h2, ?_⟩
    rw [hfr a (List.mem_cons_self a l)]
    exact ih _ h3 (fun b hb => hfr b (List.mem_cons_of_mem a hb))

theorem chain_unique (m : Mem) (l₁ : List Nat) :
    ∀ h l₂, chain m h l₁ → chain m h l₂ → l₁ = l₂ := by
  induction l₁ with
  | nil =>
    intro h l₂ h1 h2
    cases l₂ with
    | nil => rfl
    | cons b l₂ =>
      obtain ⟨e, hb, _⟩ := h2
      exact absurd (e.symm.trans h1) hb
  | cons a l₁ ih =>
    intro h l₂ h1 h2
    obtain ⟨e1, ha, c1⟩ := h1
    cases l₂ with
    | nil => exact absurd (e1.symm.trans h2) ha
    | cons b l₂ =>
      obtain ⟨e2, _, c2⟩ := h2
      have hab : a = b := e1.symm.trans e2
      subst hab
      rw [ih _ _ c1 c2]

theorem chain_nil_iff (m : Mem) (h : Nat) (l : List Nat) (hc : chain m h l) :
    h = 0 ↔ l = [] := by
  cases l with
  | nil => exact ⟨fun _ => rfl, fun _ => hc⟩
  | cons a l =>
    obtain ⟨e, ha, _⟩ := hc
    constructor
    · intro h0; exact absurd (e.symm.trans h0) ha
    · intro h0; cases h0

/-! ## Pool bank lemmas -/

theorem mem_allFree (L : Layout) (ls : Nat → List Nat) (a : Nat) :
    a ∈ allFree L ls ↔ ∃ i, i < L.NCPU ∧ a ∈ ls i := by
  simp [allFree, List.mem_flatMap, List.mem_range]

theorem flatMap_setList_of_not_mem (ls : Nat → List Nat) (i : Nat) (t : List Nat)
    (is : List Nat) (hi : i ∉ is) : is.flatMap (setList ls i t) = is.flatMap ls := by
  induction is with
  | nil => rfl
  | cons j is ih =>
    have hj : j ≠ i := fun e => hi (e ▸ List.mem_cons_self j is)
    have hi' : i ∉ is := fun h => hi (List.mem_cons_of_mem j h)
    simp only [List.flatMap_cons, ih hi', setList, hj, if_false]

theorem flatMap_setList_perm (ls : Nat → List Nat) (i x : Nat) (t : List Nat)
    (hls : ls i = x :: t) (is : List Nat) (hnd : is.Nodup) (hi : i ∈ is) :
    (is.flatMap ls).Perm (x :: is.flatMap (setList ls i t)) := by
  induction is with
  | nil => cases hi
  | cons j is ih =>
    rw [List.nodup_cons] at hnd
    simp only [List.flatMap_cons]
    by_cases hj : j = i
    · subst hj
      rw [flatMap_setList_of_not_mem ls j t is hnd.1]
      simp [setList, hls]
    · have hi' : i ∈ is := by
        rcases List.mem_cons.mp hi with h | h
        · exact absurd h.symm hj
        · exact h
      have hp := ih hnd.2 hi'
      simp only [setList, hj, if_false]
      exact (List.Perm.append_left (ls j) hp).trans List.perm_middle

/-- Removing the head `x` of pool `i` removes one occurrence of `x` from the
pages of the pool bank. -/
theorem allFree_perm (L : Layout) (ls : Nat → List Nat) (i x : Nat) (t : List Nat)
    (hi : i < L.NCPU) (hls : ls i = x :: t) :
    (allFree L ls).Perm (x :: allFree L (setList ls i t)) :=
  flatMap_setList_perm ls i x t hls _ (List.nodup_range _) (List.mem_range.mpr hi)

theorem setList_setList (ls : Nat → List Nat) (i : Nat) (l : List Nat) :
    setList (setList ls i l) i (ls i) = ls := by
  funext j
  by_cases h : j = i
  · simp [setList, h]
  · simp [setList, h]

/-- Adding `x` in front of pool `i` adds one occurrence of `x` to the pages of
the pool bank. -/
theorem allFree_push_perm (L : Layout) (ls : Nat → List Nat) (i x : Nat)
    (hi : i < L.NCPU) :
    (allFree L (setList ls i (x :: ls i))).Perm (x :: allFree L ls) := by
  have h := allFree_perm L (setList ls i (x :: ls i)) i x (ls i) hi (by simp [setList])
  rwa [setList_setList] at h

/-! ## `kfree` on represented states -/

theorem kfree_done (L : Layout) (cid pa : Nat) (s : Kmem) (hv : validPage L pa) :
    kfree L cid pa s = Outcome.done (pushHead s cid pa) := by
  obtain ⟨h1, h2, h3⟩ := hv
  have h : ¬ (pa % PGSIZE ≠ 0 ∨ pa < L.kend ∨ pa ≥ L.PHYSTOP) := by omega
  simp only [kfree, h, if_false, pushHead]

theorem kfree_panic (L : Layout) (cid pa : Nat) (s : Kmem) (hv : ¬ validPage L pa) :
    kfree L cid pa s = Outcome.panic s := by
  have h : pa % PGSIZE ≠ 0 ∨ pa < L.kend ∨ pa ≥ L.PHYSTOP := by
    unfold validPage at hv; omega
  simp only [kfree, h, if_true]

theorem Rep.head_lt {L : Layout} {s : Kmem} {ls : Nat → List Nat} (hr : Rep L s ls)
    (hL : L.sane) (i : Nat) (hi : i < L.NCPU) : s.freelist i < WORD := by
  have hc := hr.chains i hi
  cases hl : ls i with
  | nil =>
    rw [hl] at hc
    have h0 : s.freelist i = 0 := hc
    rw [h0]; unfold WORD; omega
  | cons a l =>
    rw [hl] at hc
    obtain ⟨e, _, _⟩ := hc
    have hv := hr.valid a ((mem_allFree L ls a).mpr ⟨i, hi, by rw [hl]; exact List.mem_cons_self a l⟩)
    obtain ⟨_, hP⟩ := hL
    obtain ⟨_, _, h3⟩ := hv
    omega

/-- A valid page that is on no free list is pushed on the caller's pool and
the other pools keep their lists. -/
theorem pushHead_rep (L : Layout) (hL : L.sane) (s : Kmem) (ls : Nat → List Nat)
    (cid pa : Nat) (hr : Rep L s ls) (hc : cid < L.NCPU) (hv : validPage L pa)
    (hn : pa ∉ allFree L ls) :
    Rep L (pushHead s cid pa) (setList ls cid (pa :: ls cid)) := by
  have hperm := allFree_push_perm L ls cid pa hc
  have hfr : ∀ i, i < L.NCPU → ∀ a, a ∈ ls i →
      readNext (pushHead s cid pa).mem a = readNext s.mem a := by
    intro i hi a ha
    have hmem : a ∈ allFree L ls := (mem_allFree L ls a).mpr ⟨i, hi, ha⟩
    have hne : a ≠ pa := fun e => hn (e ▸ hmem)
    exact readNext_kfree_other s.mem pa _ a hv.1 (hr.valid a hmem).1 hne
  refine ⟨?_, ?_, ?_⟩
  · intro i hi
    by_cases hic : i = cid
    · subst hic
      have hpa0 : pa ≠ 0 := by
        obtain ⟨h0, _⟩ := hL
        obtain ⟨_, h2, _⟩ := hv
        omega
      have hlink : readNext (pushHead s i pa).mem pa = s.freelist i :=
        readNext_writeNext _ pa _ (hr.head_lt hL i hi)
      have hhead : (pushHead s i pa).freelist i = pa := by simp [pushHead, setHead]
      have hlist : setList ls i (pa :: ls i) i = pa :: ls i := by simp [setList]
      rw [hhead, hlist]
      refine ⟨rfl, hpa0, ?_⟩
      rw [hlink]
      exact chain_congr s.mem _ (ls i) _ (hr.chains i hi) (hfr i hi)
    · have hhead : (pushHead s cid pa).freelist i = s.freelist i := by
        simp [pushHead, setHead, hic]
      have hlist : setList ls cid (pa :: ls cid) i = ls i := by simp [setList, hic]
      rw [hhead, hlist]
      exact chain_congr s.mem _ (ls i) _ (hr.chains i hi) (hfr i hi)
  · intro a ha
    rcases List.mem_cons.mp (hperm.subset ha) with h | h
    · rw [h]; exact hv
    · exact hr.valid a h
  · exact hperm.symm.nodup_iff.mp (List.nodup_cons.mpr ⟨hn, hr.nodup⟩)

/-! ## `kalloc` on represented states -/

/-- Popping the head of a non-empty pool leaves the tail in that pool and
keeps the other pools' lists. -/
theorem popHead_rep (L : Layout) (s : Kmem) (ls : Nat → List Nat) (j r : Nat)
    (t : List Nat) (hr : Rep L s ls) (hj : j < L.NCPU) (hls : ls j = r :: t) :
    Rep L (popHead s j) (setList ls j t) := by
  have hperm := allFree_perm L ls j r t hj hls
  have hnd : (r :: allFree L (setList ls j t)).Nodup := hperm.nodup_iff.mp hr.nodup
  rw [List.nodup_cons] at hnd
  have hcj := hr.chains j hj
  rw [hls] at hcj
  obtain ⟨hhead, hr0, hct⟩ := hcj
  have hrv : validPage L r := hr.valid r (hperm.symm.subset (List.mem_cons_self r _))
  have hsub : ∀ a, a ∈ allFree L (setList ls j t) → a ∈ allFree L ls :=
    fun a ha => hperm.symm.subset (List.mem_cons_of_mem r ha)
  have hfr : ∀ i, i < L.NCPU → ∀ a, a ∈ setList ls j t i →
      readNext (popHead s j).mem a = readNext s.mem a := by
    intro i hi a ha
    have hmem : a ∈ allFree L (setList ls j t) := (mem_allFree L _ a).mpr ⟨i, hi, ha⟩
    have hne : a ≠ r := fun e => hnd.1 (e ▸ hmem)
    simp only [popHead, hhead]
    exact readNext_kalloc_other s.mem r a hrv.1 (hr.valid a (hsub a hmem)).1 hne
  refine ⟨?_, fun a ha => hr.valid a (hsub a ha), hnd.2⟩
  intro i hi
  by_cases hij : i = j
  · subst hij
    have hh : (popHead s i).freelist i = readNext s.mem r := by
      simp [popHead, setHead, hhead]
    have hl : setList ls i t i = t := by simp [setList]
    have := hfr i hi
    rw [hl] at this
    rw [hh, hl]
    exact chain_congr s.mem _ t _ hct this
  · have hh : (popHead s j).freelist i = s.freelist i := by simp [popHead, setHead, hij]
    have hl : setList ls j t i = ls i := by simp [setList, hij]
    have := hfr i hi
    rw [hl] at this
    rw [hh, hl]
    exact chain_congr s.mem _ (ls i) _ (hr.chains i hi) this

theorem kallocLoop_append (s : Kmem) (l₁ l₂ : List Nat) :
    kallocLoop s (l₁ ++ l₂) = (kallocLoop s l₁).orElse (fun _ => kallocLoop s l₂) := by
  induction l₁ with
  | nil => rfl
  | cons i l₁ ih =>
    by_cases h : s.freelist i = 0
    · simp [kallocLoop, h, ih]
    · simp [kallocLoop, h]

theorem kalloc_eq (L : Layout) (cid : Nat) (s : Kmem) :
    kalloc L cid s = (kallocLoop s (ring L cid)).getD (0, s) := by
  unfold kalloc ring
  rw [kallocLoop_append]
  cases kallocLoop s (List.range' cid (L.NCPU - cid)) with
  | some res => rfl
  | none =>
    cases kallocLoop s (List.range cid) with
    | some res => rfl
    | none => rfl

theorem kallocLoop_none (s : Kmem) (is : List Nat) (h : ∀ i, i ∈ is → s.freelist i = 0) :
    kallocLoop s is = none := by
  induction is with
  | nil => rfl
  | cons i is ih =>
    have hi := h i (List.mem_cons_self i is)
    simp only [kallocLoop, hi, ne_eq, not_true_eq_false, if_false]
    exact ih (fun j hj => h j (List.mem_cons_of_mem i hj))

theorem kallocLoop_some (s : Kmem) (is : List Nat) :
    ∀ n j, is[n]? = some j → s.freelist j ≠ 0 →
      (∀ n' j' : Nat, n' < n → is[n']? = some j' → s.freelist j' = 0) →
      kallocLoop s is = some (s.freelist j, popHead s j) := by
  induction is with
  | nil => intro n j hj; simp at hj
  | cons i is ih =>
    intro n j hj hne hpre
    cases n with
    | zero =>
      simp only [List.getElem?_cons_zero, Option.some.injEq] at hj
      subst hj
      simp only [kallocLoop, hne, ne_eq, not_false_eq_true, if_true, popHead]
    | succ n =>
      have hi : s.freelist i = 0 := hpre 0 i (Nat.succ_pos n) (by simp)
      simp only [List.getElem?_cons_succ] at hj
      simp only [kallocLoop, hi, ne_eq, not_true_eq_false, if_false]
      exact ih n j hj hne (fun n' j' hn' hj' =>
        hpre (n' + 1) j' (Nat.succ_lt_succ hn') (by simpa using hj'))

theorem ring_length (L : Layout) (cid : Nat) (hc : cid < L.NCPU) :
    (ring L cid).length = L.NCPU := by
  simp [ring]; omega

theorem ring_getElem? (L : Layout) (cid k : Nat) (hc : cid < L.NCPU) (hk : k < L.NCPU) :
    (ring L cid)[k]? = some ((cid + k) % L.NCPU) := by
  unfold ring
  by_cases h : k < L.NCPU - cid
  · rw [List.getElem?_append_left (by simpa using h), List.getElem?_range' _ _ h]
    have : (cid + k) % L.NCPU = cid + k := Nat.mod_eq_of_lt (by omega)
    simp [this]
  · rw [List.getElem?_append_right (by simp; omega)]
    simp only [List.length_range']
    rw [List.getElem?_range (by omega)]
    have : (cid + k) % L.NCPU = k - (L.NCPU - cid) := by
      have e : cid + k = (k - (L.NCPU - cid)) + L.NCPU := by omega
      rw [e, Nat.add_mod_right]
      exact Nat.mod_eq_of_lt (by omega)
    rw [this]

theorem mem_ring (L : Layout) (cid i : Nat) (hc : cid < L.NCPU) :
    i ∈ ring L cid ↔ i < L.NCPU := by
  simp only [ring, List.mem_append, List.mem_range'_1, List.mem_range]
  omega

/-- Every pool visited by `kalloc` is empty: it returns null and changes nothing. -/
theorem kalloc_empty (L : Layout) (cid : Nat) (s : Kmem) (hc : cid < L.NCPU)
    (h : ∀ i, i < L.NCPU → s.freelist i = 0) : kalloc L cid s = (0, s) := by
  rw [kalloc_eq, kallocLoop_none s _ (fun i hi => h i ((mem_ring L cid i hc).mp hi))]
  rfl

/-- The pool at ring distance `k` from the caller is the first non-empty one:
`kalloc` pops its head. -/
theorem kalloc_first (L : Layout) (cid k : Nat) (s : Kmem) (hc : cid < L.NCPU)
    (hk : k < L.NCPU) (hne : s.freelist ((cid + k) % L.NCPU) ≠ 0)
    (hpre : ∀ k', k' < k → s.freelist ((cid + k') % L.NCPU) = 0) :
    kalloc L cid s
      = (s.freelist ((cid + k) % L.NCPU), popHead s ((cid + k) % L.NCPU)) := by
  rw [kalloc_eq, kallocLoop_some s _ k _ (ring_getElem? L cid k hc hk) hne]
  · rfl
  · intro n' j' hn' hj'
    rw [ring_getElem? L cid n' hc (by omega)] at hj'
    cases hj'
    exact hpre n' hn'

/-- Either all pools are empty or some pool is the first non-empty one in
ring order from the caller. -/
theorem ring_first (L : Layout) (cid : Nat) (s : Kmem) (hc : cid < L.NCPU) :
    (∀ i, i < L.NCPU → s.freelist i = 0) ∨
    ∃ k, k < L.NCPU ∧ s.freelist ((cid + k) % L.NCPU) ≠ 0 ∧
      ∀ k', k' < k → s.freelist ((cid + k') % L.NCPU) = 0 := by
  by_cases hex : ∃ k, k < L.NCPU ∧ s.freelist ((cid + k) % L.NCPU) ≠ 0
  · right
    classical
    refine ⟨Nat.find hex, (Nat.find_spec hex).1, (Nat.find_spec hex).2, ?_⟩
    intro k' hk'
    have hmin := Nat.find_min hex hk'
    have hlt : k' < L.NCPU := Nat.lt_trans hk' (Nat.find_spec hex).1
    by_contra hne
    exact hmin ⟨hlt, hne⟩
  · left
    intro i hi
    by_contra hne
    apply hex
    by_cases hic : cid ≤ i
    · refine ⟨i - cid, by omega, ?_⟩
      have e : (cid + (i - cid)) % L.NCPU = i := by
        rw [Nat.add_sub_cancel' hic]; exact Nat.mod_eq_of_lt hi
      rw [e]; exact hne
    · refine ⟨i + L.NCPU - cid, by omega, ?_⟩
      have e : (cid + (i + L.NCPU - cid)) % L.NCPU = i := by
        have : cid + (i + L.NCPU - cid) = i + L.NCPU := by omega
        rw [this, Nat.add_mod_right]; exact Nat.mod_eq_of_lt hi
      rw [e]; exact hne

/-- On a represented pool bank `kalloc` either finds every list empty, returns
null and changes nothing, or pops the head of one pool. -/
theorem kalloc_rep (L : Layout) (s : Kmem) (ls : Nat → List Nat) (cid : Nat)
    (hr : Rep L s ls) (hc : cid < L.NCPU) :
    (allFree L ls = [] ∧ kalloc L cid s = (0, s)) ∨
    ∃ j r t, j < L.NCPU ∧ ls j = r :: t ∧ r ≠ 0 ∧ kalloc L cid s = (r, popHead s j) ∧
      Rep L (popHead s j) (setList ls j t) := by
  rcases ring_first L cid s hc with h | ⟨k, hk, hne, hpre⟩
  · left
    refine ⟨?_, kalloc_empty L cid s hc h⟩
    apply List.eq_nil_iff_forall_not_mem.mpr
    intro a ha
    obtain ⟨i, hi, hai⟩ := (mem_allFree L ls a).mp ha
    have hnil := (chain_nil_iff _ _ _ (hr.chains i hi)).mp (h i hi)
    rw [hnil] at hai
    cases hai
  · right
    have hj : (cid + k) % L.NCPU < L.NCPU := Nat.mod_lt _ (by omega)
    have hcj := hr.chains _ hj
    cases hl : ls ((cid + k) % L.NCPU) with
    | nil =>
      rw [hl] at hcj
      exact absurd hcj hne
    | cons r t =>
      rw [hl] at hcj
      obtain ⟨e, hr0, _⟩ := hcj
      refine ⟨_, r, t, hj, hl, hr0, ?_, popHead_rep L s ls _ r t hr hj hl⟩
      rw [kalloc_first L cid k s hc hk hne hpre, e]

/-! ## Sequences of calls on represented states -/

theorem allFree_nil (L : Layout) : allFree L (fun _ => []) = [] := by
  apply List.eq_nil_iff_forall_not_mem.mpr
  intro a ha
  obtain ⟨i, _, hai⟩ := (mem_allFree L _ a).mp ha
  cases hai

/-- A pool bank whose heads are all null represents the empty lists. -/
theorem rep_empty (L : Layout) (s : Kmem) (hs : ∀ i, i < L.NCPU → s.freelist i = 0) :
    Rep L s (fun _ => []) := by
  refine ⟨fun i hi => hs i hi, ?_, ?_⟩
  · intro a ha; rw [allFree_nil] at ha; cases ha
  · rw [allFree_nil]; exact List.nodup_nil

/-- With no free page, every head is null. -/
theorem Rep.heads_null {L : Layout} {s : Kmem} {ls : Nat → List Nat} (hr : Rep L s ls)
    (h : allFree L ls = []) : ∀ i, i < L.NCPU → s.freelist i = 0 := by
  intro i hi
  apply (chain_nil_iff _ _ _ (hr.chains i hi)).mpr
  apply List.eq_nil_iff_forall_not_mem.mpr
  intro a ha
  have : a ∈ allFree L ls := (mem_allFree L ls a).mpr ⟨i, hi, ha⟩
  rw [h] at this
  cases this

theorem kfreeSeq_rep (L : Layout) (hL : L.sane) (calls : List (Nat × Nat)) :
    ∀ (s : Kmem) (ls : Nat → List Nat), Rep L s ls →
      (∀ c, c ∈ calls → c.1 < L.NCPU ∧ validPage L c.2) →
      (calls.map Prod.snd ++ allFree L ls).Nodup →
      ∃ s' ls', kfreeSeq L calls s = Outcome.done s' ∧ Rep L s' ls' ∧
        (allFree L ls').Perm (calls.map Prod.snd ++ allFree L ls) := by
  induction calls with
  | nil =>
    intro s ls hr _ _
    exact ⟨s, ls, rfl, hr, List.Perm.refl _⟩
  | cons c rest ih =>
    intro s ls hr hv hnd
    obtain ⟨hc, hpa⟩ := hv c (List.mem_cons_self c rest)
    simp only [List.map_cons, List.cons_append, List.nodup_cons] at hnd
    have hn : c.2 ∉ allFree L ls := fun h => hnd.1 (List.mem_append_right _ h)
    have hr1 := pushHead_rep L hL s ls c.1 c.2 hr hc hpa hn
    have hp1 := allFree_push_perm L ls c.1 c.2 hc
    have hmid : (rest.map Prod.snd ++ allFree L (setList ls c.1 (c.2 :: ls c.1))).Perm
        (c.2 :: (rest.map Prod.snd ++ allFree L ls)) :=
      (List.Perm.append_left _ hp1).trans List.perm_middle
    have hnd1 : (rest.map Prod.snd ++ allFree L (setList ls c.1 (c.2 :: ls c.1))).Nodup :=
      hmid.symm.nodup_iff.mp (List.nodup_cons.mpr hnd)
    obtain ⟨s', ls', hk, hr', hp'⟩ := ih (pushHead s c.1 c.2) _ hr1
      (fun d hd => hv d (List.mem_cons_of_mem c hd)) hnd1
    refine ⟨s', ls', ?_, hr', ?_⟩
    · simp only [kfreeSeq, kfree_done L c.1 c.2 s hpa]
      exact hk
    · simp only [List.map_cons, List.cons_append]
      exact hp'.trans hmid

theorem kallocSeq_rep (L : Layout) (cores : List Nat) :
    ∀ (s : Kmem) (ls : Nat → List Nat), Rep L s ls →
      (∀ c, c ∈ cores → c < L.NCPU) → cores.length ≤ (allFree L ls).length →
      ∃ ls', Rep L (kallocSeq L cores s).2 ls' ∧
        (allFree L ls).Perm ((kallocSeq L cores s).1 ++ allFree L ls') ∧
        (kallocSeq L cores s).1.length = cores.length ∧
        ∀ r, r ∈ (kallocSeq L cores s).1 → r ≠ 0 := by
  induction cores with
  | nil =>
    intro s ls hr _ _
    exact ⟨ls, hr, List.Perm.refl _, rfl, fun r hr' => by cases hr'⟩
  | cons c rest ih =>
    intro s ls hr hc hlen
    rcases kalloc_rep L s ls c hr (hc c (List.mem_cons_self c rest)) with
      ⟨hnil, _⟩ | ⟨j, r, t, hj, hls, hr0, hk, hr1⟩
    · rw [hnil] at hlen
      simp at hlen
    · have hp := allFree_perm L ls j r t hj hls
      have hlen1 : rest.length ≤ (allFree L (setList ls j t)).length := by
        have := hp.length_eq
        simp only [List.length_cons] at this hlen
        omega
      obtain ⟨ls', hr', hp', hl', hnz⟩ := ih (popHead s j) _ hr1
        (fun d hd => hc d (List.mem_cons_of_mem c hd)) hlen1
      refine ⟨ls', ?_, ?_, ?_, ?_⟩
      · simp only [kallocSeq, hk]; exact hr'
      · simp only [kallocSeq, hk, List.cons_append]
        exact hp.trans (List.Perm.cons r hp')
      · simp only [kallocSeq, hk, List.length_cons, hl']
      · intro x hx
        simp only [kallocSeq, hk, List.mem_cons] at hx
        rcases hx with h | h
        · rw [h]; exact hr0
        · exact hnz x h

/-! ## The `freerange` loop -/

theorem pages_succ (p n : Nat) : pages p (n + 1) = p :: pages (p + PGSIZE) n := by
  simp only [pages, List.range_succ_eq_map, List.map_cons, List.map_map, Nat.zero_mul,
    Nat.add_zero]
  congr 1
  apply List.map_congr_left
  intro i _
  simp only [Function.comp, Nat.succ_mul]
  omega

theorem mem_pages (p n a : Nat) : a ∈ pages p n ↔ ∃ i, i < n ∧ a = p + i * PGSIZE := by
  simp only [pages, List.mem_map, List.mem_range]
  constructor
  · rintro ⟨i, hi, e⟩; exact ⟨i, hi, e.symm⟩
  · rintro ⟨i, hi, e⟩; exact ⟨i, hi, e.symm⟩

theorem freerangeLoop_exit (L : Layout) (cpus : Nat → Nat) (pa_end fuel k p : Nat) (s : Kmem)
    (h : ¬ (p + PGSIZE) % WORD ≤ pa_end) :
    freerangeLoop L cpus pa_end (fuel + 1) k p s = some ([], Outcome.done s) := by
  simp only [freerangeLoop, h, if_false]

theorem freerangeLoop_panic (L : Layout) (cpus : Nat → Nat) (pa_end fuel k p : Nat) (s : Kmem)
    (h : (p + PGSIZE) % WORD ≤ pa_end) (hv : ¬ validPage L p) :
    freerangeLoop L cpus pa_end (fuel + 1) k p s = some ([p], Outcome.panic s) := by
  simp only [freerangeLoop, h, if_true, kfree_panic L _ p s hv]

theorem freerangeLoop_step (L : Layout) (cpus : Nat → Nat) (pa_end fuel k p : Nat) (s : Kmem)
    (h : (p + PGSIZE) % WORD ≤ pa_end) (hv : validPage L p) :
    freerangeLoop L cpus pa_end (fuel + 1) k p s
      = (freerangeLoop L cpus pa_end fuel (k + 1) ((p + PGSIZE) % WORD)
          (pushHead s (cpus k) p)).map (fun x => (p :: x.1, x.2)) := by
  simp only [freerangeLoop, h, if_true, kfree_done L _ p s hv]
  cases freerangeLoop L cpus pa_end fuel (k + 1) ((p + PGSIZE) % WORD)
      (pushHead s (cpus k) p) with
  | none => rfl
  | some x => rfl

/-- With enough fuel the loop of `freerange` ends, and when it ends without
`panic` it has freed exactly the whole pages between `p` and `pa_end`, in
ascending order. -/
theorem freerangeLoop_spec (L : Layout) (hL : L.sane) (cpus : Nat → Nat) (pa_end : Nat)
    (fuel : Nat) :
    ∀ (k p : Nat) (s : Kmem), p % PGSIZE = 0 → p < WORD →
      pa_end / PGSIZE ≤ fuel + p / PGSIZE →
      ∃ calls out, freerangeLoop L cpus pa_end (fuel + 1) k p s = some (calls, out) ∧
        (out.panicked = false → calls = pages p ((pa_end - p) / PGSIZE)) := by
  obtain ⟨hk0, hP⟩ := hL
  have key : ∀ (p : Nat), p % PGSIZE = 0 → p < WORD → validPage L p →
      (p + PGSIZE) % WORD = p + PGSIZE := by
    intro p _ _ hv
    obtain ⟨_, _, h3⟩ := hv
    exact Nat.mod_eq_of_lt (by omega)
  have hexit : ∀ (p : Nat), p % PGSIZE = 0 → p < WORD → ¬ (p + PGSIZE) % WORD ≤ pa_end →
      (pa_end - p) / PGSIZE = 0 := by
    intro p hp hpw hchk
    unfold PGSIZE WORD at *
    by_cases hw : p + 4096 < 2 ^ 64
    · rw [Nat.mod_eq_of_lt hw] at hchk
      omega
    · have : p + 4096 = 2 ^ 64 := by omega
      rw [this, Nat.mod_self] at hchk
      omega
  induction fuel with
  | zero =>
    intro k p s hp hpw hb
    by_cases hchk : (p + PGSIZE) % WORD ≤ pa_end
    · by_cases hv : validPage L p
      · exfalso
        rw [key p hp hpw hv] at hchk
        unfold PGSIZE at *
        omega
      · exact ⟨[p], Outcome.panic s, freerangeLoop_panic L cpus pa_end 0 k p s hchk hv,
          fun h => by simp [Outcome.panicked] at h⟩
    · refine ⟨[], Outcome.done s, freerangeLoop_exit L cpus pa_end 0 k p s hchk, fun _ => ?_⟩
      rw [hexit p hp hpw hchk]; rfl
  | succ fuel ih =>
    intro k p s hp hpw hb
    by_cases hchk : (p + PGSIZE) % WORD ≤ pa_end
    · by_cases hv : validPage L p
      · have hnext := key p hp hpw hv
        have hp' : (p + PGSIZE) % PGSIZE = 0 := by unfold PGSIZE at *; omega
        have hpw' : p + PGSIZE < WORD := by
          obtain ⟨_, _, h3⟩ := hv; omega
        have hb' : pa_end / PGSIZE ≤ fuel + (p + PGSIZE) / PGSIZE := by
          unfold PGSIZE at *; omega
        obtain ⟨calls, out, hrun, hcalls⟩ :=
          ih (k + 1) (p + PGSIZE) (pushHead s (cpus k) p) hp' hpw' hb'
        refine ⟨p :: calls, out, ?_, ?_⟩
        · rw [freerangeLoop_step L cpus pa_end (fuel + 1) k p s hchk hv, hnext, hrun]
          rfl
        · intro hnp
          rw [hcalls hnp]
          rw [hnext] at hchk
          have : (pa_end - p) / PGSIZE = (pa_end - (p + PGSIZE)) / PGSIZE + 1 := by
            unfold PGSIZE at *; omega
          rw [this, pages_succ]
      · exact ⟨[p], Outcome.panic s,
          freerangeLoop_panic L cpus pa_end (fuel + 1) k p s hchk hv,
          fun h => by simp [Outcome.panicked] at h⟩
    · refine ⟨[], Outcome.done s,
        freerangeLoop_exit L cpus pa_end (fuel + 1) k p s hchk, fun _ => ?_⟩
      rw [hexit p hp hpw hchk]; rfl

/-- The outcome of the loop of `freerange` is that of its `kfree` calls made
one after the other. -/
theorem freerangeLoop_kfreeSeq (L : Layout) (cpus : Nat → Nat) (pa_end : Nat) (fuel : Nat) :
    ∀ (k p : Nat) (s : Kmem) (calls : List Nat) (out : Outcome),
      freerangeLoop L cpus pa_end fuel k p s = some (calls, out) →
      out = kfreeSeq L (tagCalls cpus k calls) s := by
  induction fuel with
  | zero => intro k p s calls out h; simp [freerangeLoop] at h
  | succ fuel ih =>
    intro k p s calls out h
    by_cases hchk : (p + PGSIZE) % WORD ≤ pa_end
    · by_cases hv : validPage L p
      · rw [freerangeLoop_step L cpus pa_end fuel k p s hchk hv] at h
        cases hrec : freerangeLoop L cpus pa_end fuel (k + 1) ((p + PGSIZE) % WORD)
            (pushHead s (cpus k) p) with
        | none => rw [hrec] at h; simp at h
        | some x =>
          rw [hrec] at h
          simp only [Option.map_some', Option.some.injEq, Prod.mk.injEq] at h
          obtain ⟨h1, h2⟩ := h
          subst h1 h2
          simp only [tagCalls, kfreeSeq, kfree_done L _ p s hv]
          exact ih _ _ _ _ _ hrec
      · rw [freerangeLoop_panic L cpus pa_end fuel k p s hchk hv] at h
        simp only [Option.some.injEq, Prod.mk.injEq] at h
        obtain ⟨h1, h2⟩ := h
        subst h1 h2
        simp only [tagCalls, kfreeSeq, kfree_panic L _ p s hv]
    · rw [freerangeLoop_exit L cpus pa_end fuel k p s hchk] at h
      simp only [Option.some.injEq, Prod.mk.injEq] at h
      obtain ⟨h1, h2⟩ := h
      subst h1 h2
      rfl

theorem pages_pairwise (p n : Nat) : (pages p n).Pairwise (fun a b => a < b) := by
  unfold pages
  rw [List.pairwise_map]
  exact (List.pairwise_lt_range n).imp (fun h => by unfold PGSIZE; omega)

theorem pages_length (p n : Nat) : (pages p n).length = n := by
  simp [pages]

/-- When every whole page between `p` and `pa_end` passes the check of `kfree`,
the loop of `freerange` frees exactly these pages and does not panic. -/
theorem freerangeLoop_valid (L : Layout) (cpus : Nat → Nat) (pa_end : Nat)
    (hend : pa_end + PGSIZE < WORD) (fuel : Nat) :
    ∀ (k p : Nat) (s : Kmem), p % PGSIZE = 0 → p + PGSIZE < WORD →
      pa_end / PGSIZE ≤ fuel + p / PGSIZE →
      (∀ a, a ∈ pages p ((pa_end - p) / PGSIZE) → validPage L a) →
      freerangeLoop L cpus pa_end (fuel + 1) k p s
        = some (pages p ((pa_end - p) / PGSIZE),
            kfreeSeq L (tagCalls cpus k (pages p ((pa_end - p) / PGSIZE))) s) := by
  have hexit : ∀ (fuel k p : Nat) (s : Kmem), p + PGSIZE < WORD →
      ¬ (p + PGSIZE) % WORD ≤ pa_end →
      freerangeLoop L cpus pa_end (fuel + 1) k p s
        = some (pages p ((pa_end - p) / PGSIZE),
            kfreeSeq L (tagCalls cpus k (pages p ((pa_end - p) / PGSIZE))) s) := by
    intro fuel k p s hpw hchk
    rw [freerangeLoop_exit L cpus pa_end fuel k p s hchk]
    rw [Nat.mod_eq_of_lt hpw] at hchk
    have : (pa_end - p) / PGSIZE = 0 := by unfold PGSIZE at *; omega
    rw [this]; rfl
  induction fuel with
  | zero =>
    intro k p s hp hpw hb hv
    by_cases hchk : (p + PGSIZE) % WORD ≤ pa_end
    · exfalso
      rw [Nat.mod_eq_of_lt hpw] at hchk
      unfold PGSIZE at *; omega
    · exact hexit 0 k p s hpw hchk
  | succ fuel ih =>
    intro k p s hp hpw hb hv
    by_cases hchk : (p + PGSIZE) % WORD ≤ pa_end
    · have hchk' := hchk
      rw [Nat.mod_eq_of_lt hpw] at hchk'
      have hn : (pa_end - p) / PGSIZE = (pa_end - (p + PGSIZE)) / PGSIZE + 1 := by
        unfold PGSIZE at *; omega
      rw [hn, pages_succ] at hv ⊢
      have hvp : validPage L p := hv p (List.mem_cons_self _ _)
      rw [freerangeLoop_step L cpus pa_end (fuel + 1) k p s hchk hvp, Nat.mod_eq_of_lt hpw,
        ih (k + 1) (p + PGSIZE) (pushHead s (cpus k) p) (by unfold PGSIZE at *; omega)
          (by omega) (by unfold PGSIZE at *; omega)
          (fun a ha => hv a (List.mem_cons_of_mem _ ha))]
      simp only [Option.map_some', tagCalls, kfreeSeq, kfree_done L _ p s hvp]
    · exact hexit (fuel + 1) k p s hpw hchk

theorem tagCalls_snd (cpus : Nat → Nat) (l : List Nat) :
    ∀ k, (tagCalls cpus k l).map Prod.snd = l := by
  induction l with
  | nil => intro k; rfl
  | cons a l ih => intro k; simp only [tagCalls, List.map_cons, ih]

theorem tagCalls_fst (cpus : Nat → Nat) (l : List Nat) :
    ∀ k c, c ∈ tagCalls cpus k l → ∃ i, c.1 = cpus i ∧ c.2 ∈ l := by
  induction l with
  | nil => intro k c hc; cases hc
  | cons a l ih =>
    intro k c hc
    simp only [tagCalls, List.mem_cons] at hc
    rcases hc with h | h
    · exact ⟨k, by rw [h], by rw [h]; exact List.mem_cons_self a l⟩
    · obtain ⟨i, h1, h2⟩ := ih (k + 1) c h
      exact ⟨i, h1, List.mem_cons_of_mem a h2⟩

theorem pages_nodup (p n : Nat) : (pages p n).Nodup :=
  (pages_pairwise p n).imp (fun h => Nat.ne_of_lt h)

/-- The pages that `kinit` frees pass the check of `kfree`. -/
theorem bootPages_valid (L : Layout) (hB : L.bootable) (a : Nat)
    (ha : a ∈ pages (PGROUNDUP L.kend) (bootPages L)) : validPage L a := by
  obtain ⟨h1, h2⟩ := hB
  obtain ⟨i, hi, e⟩ := (mem_pages _ _ _).mp ha
  unfold bootPages at hi
  have hr : PGROUNDUP L.kend = (L.kend + PGSIZE - 1) / PGSIZE * PGSIZE := by
    unfold PGROUNDUP
    rw [Nat.mod_eq_of_lt (by unfold PGSIZE WORD at *; omega)]
  rw [hr] at hi e
  unfold validPage
  unfold PGSIZE WORD at *
  omega

/-- From empty pools, `kinit` ends without `panic`, has freed the whole pages
between the end of the kernel and `PHYSTOP`, and leaves a represented pool
bank whose free pages are exactly these. -/
theorem kinit_rep (L : Layout) (hL : L.sane) (hB : L.bootable) (cpus : Nat → Nat)
    (hcpus : ∀ k, cpus k < L.NCPU) (fuel : Nat) (hfuel : L.PHYSTOP / PGSIZE < fuel)
    (s : Kmem) (hs : ∀ i, i < L.NCPU → s.freelist i = 0) :
    ∃ s1 ls1, kinit L cpus fuel s
        = some (pages (PGROUNDUP L.kend) (bootPages L), Outcome.done s1) ∧
      Rep L s1 ls1 ∧ (allFree L ls1).Perm (pages (PGROUNDUP L.kend) (bootPages L)) := by
  have hpos : 0 < fuel := Nat.lt_of_le_of_lt (Nat.zero_le _) hfuel
  obtain ⟨f, rfl⟩ : ∃ f, fuel = f + 1 := ⟨fuel - 1, by omega⟩
  have hB' := hB
  obtain ⟨h1, h2⟩ := hB'
  have hr : PGROUNDUP L.kend = (L.kend + PGSIZE - 1) / PGSIZE * PGSIZE := by
    unfold PGROUNDUP
    rw [Nat.mod_eq_of_lt (by unfold PGSIZE WORD at *; omega)]
  have hrun := freerangeLoop_valid L cpus L.PHYSTOP (by unfold PGSIZE WORD at *; omega) f 0
    (PGROUNDUP L.kend) s (by rw [hr]; exact Nat.mul_mod_left _ _)
    (by rw [hr]; unfold PGSIZE WORD at *; omega)
    (by unfold PGSIZE at *; omega) (bootPages_valid L hB)
  obtain ⟨s1, ls1, hk, hr1, hp1⟩ := kfreeSeq_rep L hL
    (tagCalls cpus 0 (pages (PGROUNDUP L.kend) (bootPages L))) s _ (rep_empty L s hs)
    (by
      intro c hc
      obtain ⟨i, e, hm⟩ := tagCalls_fst cpus _ 0 c hc
      exact ⟨by rw [e]; exact hcpus i, bootPages_valid L hB c.2 hm⟩)
    (by rw [allFree_nil, List.append_nil, tagCalls_snd]; exact pages_nodup _ _)
  rw [allFree_nil, List.append_nil, tagCalls_snd] at hp1
  refine ⟨s1, ls1, ?_, hr1, hp1⟩
  unfold kinit freerange
  unfold bootPages at hk ⊢
  rw [hrun, hk]

/-! ## Callers that keep to the contract -/

theorem step_inv (L : Layout) (hL : L.sane) (seeded : List Nat) (hnd : seeded.Nodup)
    (hval : ∀ a, a ∈ seeded → validPage L a) (w : World) (c : Call)
    (hinv : Inv L seeded w) (hc : allowed L w c) : Inv L seeded (step L w c) := by
  obtain ⟨ls, hr, hp⟩ := hinv
  cases c with
  | alloc cid =>
    have hcid : cid < L.NCPU := hc
    rcases kalloc_rep L w.kmem ls cid hr hcid with ⟨_, hk⟩ | ⟨j, r, t, hj, hls, hr0, hk, hr1⟩
    · refine ⟨ls, ?_, ?_⟩
      · simp only [step, hk]; exact hr
      · simp only [step, hk, if_true]; exact hp
    · refine ⟨setList ls j t, ?_, ?_⟩
      · simp only [step, hk]; exact hr1
      · simp only [step, hk, hr0, if_false]
        have h1 := allFree_perm L ls j r t hj hls
        exact (List.perm_middle.trans (h1.symm.append_right w.owned)).trans hp
  | free cid pa =>
    obtain ⟨hcid, hown⟩ : cid < L.NCPU ∧ pa ∈ w.owned := hc
    have hv : validPage L pa := hval pa (hp.subset (List.mem_append_right _ hown))
    have hnd' : (allFree L ls ++ w.owned).Nodup := hp.symm.nodup_iff.mp hnd
    have hn : pa ∉ allFree L ls := fun h =>
      (List.disjoint_of_nodup_append hnd') h hown
    refine ⟨setList ls cid (pa :: ls cid), ?_, ?_⟩
    · simp only [step, kfree_done L cid pa w.kmem hv, Outcome.state]
      exact pushHead_rep L hL w.kmem ls cid pa hr hcid hv hn
    · simp only [step]
      have h1 := allFree_push_perm L ls cid pa hcid
      have h2 : (pa :: w.owned.erase pa).Perm w.owned := (List.perm_cons_erase hown).symm
      exact (((h1.append_right _).trans List.perm_middle.symm).trans
        (h2.append_left _)).trans hp

theorem run_inv (L : Layout) (hL : L.sane) (seeded : List Nat) (hnd : seeded.Nodup)
    (hval : ∀ a, a ∈ seeded → validPage L a) (cs : List Call) :
    ∀ w, Inv L seeded w → permitted L w cs → Inv L seeded (run L w cs) := by
  induction cs with
  | nil => intro w h _; exact h
  | cons c cs ih =>
    intro w h hp
    exact ih _ (step_inv L hL seeded hnd hval w c h hp.1) hp.2

/-- After `kinit` no page is allocated and the seeded pages are all free. -/
theorem kinit_inv (L : Layout) (hL : L.sane) (hB : L.bootable) (cpus : Nat → Nat)
    (hcpus : ∀ k, cpus k < L.NCPU) (fuel : Nat) (hfuel : L.PHYSTOP / PGSIZE < fuel)
    (s : Kmem) (hs : ∀ i, i < L.NCPU → s.freelist i = 0) :
    kinit L cpus fuel s = some (pages (PGROUNDUP L.kend) (bootPages L),
        Outcome.done (kinitState L cpus fuel s)) ∧
      Inv L (pages (PGROUNDUP L.kend) (bootPages L)) ⟨kinitState L cpus fuel s, []⟩ := by
  obtain ⟨s1, ls1, hk, hr1, hp1⟩ := kinit_rep L hL hB cpus hcpus fuel hfuel s hs
  have e : kinitState L cpus fuel s = s1 := by simp only [kinitState, hk, Outcome.state]
  rw [e]
  exact ⟨hk, ls1, hr1, by simpa using hp1⟩

/-! ## Claims -/

/-- C1 (conservation). From a pool bank in which every pool is empty, freeing
distinct valid pages, in any order and on any cores, and then allocating as many
times on any cores gives back non-null pointers that are exactly the freed
pages, each once, and leaves every pool empty. -/
theorem C1_conservation (L : Layout) (hL : L.sane) (s : Kmem)
    (hs : ∀ i, i < L.NCPU → s.freelist i = 0)
    (frees : List (Nat × Nat)) (cores : List Nat)
    (hS : (frees.map Prod.snd).Nodup)
    (hv : ∀ c, c ∈ frees → c.1 < L.NCPU ∧ validPage L c.2)
    (hcores : ∀ c, c ∈ cores → c < L.NCPU) (hlen : cores.length = frees.length) :
    ∃ s1, kfreeSeq L frees s = Outcome.done s1 ∧
      ((kallocSeq L cores s1).1).Perm (frees.map Prod.snd) ∧
      (∀ r, r ∈ (kallocSeq L cores s1).1 → r ≠ 0) ∧
      ∀ i, i < L.NCPU → (kallocSeq L cores s1).2.freelist i = 0 := by
  obtain ⟨s1, ls1, hk, hr1, hp1⟩ := kfreeSeq_rep L hL frees s _ (rep_empty L s hs) hv
    (by rw [allFree_nil, List.append_nil]; exact hS)
  rw [allFree_nil, List.append_nil] at hp1
  have hl1 : cores.length ≤ (allFree L ls1).length := by
    rw [hp1.length_eq, List.length_map, hlen]
  obtain ⟨ls2, hr2, hp2, hl2, hnz⟩ := kallocSeq_rep L cores s1 ls1 hr1 hcores hl1
  have hnil : allFree L ls2 = [] := by
    have h := hp2.length_eq
    rw [hp1.length_eq, List.length_append, hl2, List.length_map, hlen] at h
    exact List.eq_nil_of_length_eq_zero (by omega)
  rw [hnil, List.append_nil] at hp2
  exact ⟨s1, hk, hp2.symm.trans hp1, hnz, hr2.heads_null hnil⟩

/-- C2 (exhaustion boundary). After `kinit` from empty pools over a range of
`bootPages L` whole pages, that many `kalloc` calls on any cores return
pairwise distinct non-null pointers, the next `kalloc` returns null, and after
a `kfree` of any one of the returned pages a `kalloc` returns non-null again. -/
theorem C2_exhaustion_boundary (L : Layout) (hL : L.sane) (hB : L.bootable)
    (cpus : Nat → Nat) (hcpus : ∀ k, cpus k < L.NCPU)
    (fuel : Nat) (hfuel : L.PHYSTOP / PGSIZE < fuel)
    (s : Kmem) (hs : ∀ i, i < L.NCPU → s.freelist i = 0)
    (cores : List Nat) (hcores : ∀ c, c ∈ cores → c < L.NCPU)
    (hlen : cores.length = bootPages L)
    (c1 c2 c3 : Nat) (h1 : c1 < L.NCPU) (h2 : c2 < L.NCPU) (h3 : c3 < L.NCPU) :
    ∃ seeded s1, kinit L cpus fuel s = some (seeded, Outcome.done s1) ∧
      seeded.length = bootPages L ∧
      (∀ r, r ∈ (kallocSeq L cores s1).1 → r ≠ 0) ∧
      (kallocSeq L cores s1).1.length = bootPages L ∧
      (kallocSeq L cores s1).1.Nodup ∧
      (kalloc L c1 (kallocSeq L cores s1).2).1 = 0 ∧
      ∀ a, a ∈ (kallocSeq L cores s1).1 →
        ∃ s3, kfree L c2 a (kalloc L c1 (kallocSeq L cores s1).2).2 = Outcome.done s3 ∧
          (kalloc L c3 s3).1 ≠ 0 := by
  obtain ⟨s1, ls1, hk, hr1, hp1⟩ := kinit_rep L hL hB cpus hcpus fuel hfuel s hs
  have hl1 : cores.length ≤ (allFree L ls1).length := by
    rw [hp1.length_eq, pages_length, hlen]
  obtain ⟨ls2, hr2, hp2, hl2, hnz⟩ := kallocSeq_rep L cores s1 ls1 hr1 hcores hl1
  have hnil : allFree L ls2 = [] := by
    have h := hp2.length_eq
    rw [hp1.length_eq, List.length_append, hl2, pages_length, hlen] at h
    exact List.eq_nil_of_length_eq_zero (by omega)
  rw [hnil, List.append_nil] at hp2
  have hseed : ((kallocSeq L cores s1).1).Perm (pages (PGROUNDUP L.kend) (bootPages L)) :=
    hp2.symm.trans hp1
  have hfail : kalloc L c1 (kallocSeq L cores s1).2 = (0, (kallocSeq L cores s1).2) :=
    kalloc_empty L c1 _ h1 (hr2.heads_null hnil)
  refine ⟨_, s1, hk, pages_length _ _, hnz, by rw [hl2, hlen],
    hseed.symm.nodup_iff.mp (pages_nodup _ _), by rw [hfail], ?_⟩
  intro a ha
  have hva : validPage L a := bootPages_valid L hB a (hseed.subset ha)
  have hna : a ∉ allFree L ls2 := by rw [hnil]; exact List.not_mem_nil a
  rw [hfail]
  refine ⟨_, kfree_done L c2 a _ hva, ?_⟩
  have hr3 := pushHead_rep L hL _ ls2 c2 a hr2 h2 hva hna
  rcases kalloc_rep L _ _ c3 hr3 h3 with ⟨hnil3, _⟩ | ⟨j, r, t, _, _, hr0, hk3, _⟩
  · have hp3 := (allFree_push_perm L ls2 c2 a h2).length_eq
    rw [hnil3] at hp3
    simp at hp3
  · rw [hk3]; exact hr0

/-- C3 (fatal-path determinism). `kfree(pa)` reaches `panic` exactly when `pa`
is not a multiple of `PGSIZE`, or is below the end of the kernel, or is at or
above `PHYSTOP`; the state at the `panic` is the state at the call, nothing
having been written; for every other address the call completes and the page
has been pushed. -/
theorem C3_kfree_panic_iff (L : Layout) (cid pa : Nat) (s : Kmem) :
    ((kfree L cid pa s).panicked = true ↔
        (pa % PGSIZE ≠ 0 ∨ pa < L.kend ∨ L.PHYSTOP ≤ pa)) ∧
    ((kfree L cid pa s).panicked = true → kfree L cid pa s = Outcome.panic s) ∧
    ((kfree L cid pa s).panicked = false →
        kfree L cid pa s = Outcome.done (pushHead s cid pa)) := by
  by_cases hv : validPage L pa
  · have hd := kfree_done L cid pa s hv
    obtain ⟨a1, a2, a3⟩ := hv
    rw [hd]
    refine ⟨⟨fun h => by simp [Outcome.panicked] at h, fun h => by omega⟩,
      fun h => by simp [Outcome.panicked] at h, fun _ => rfl⟩
  · have hd := kfree_panic L cid pa s hv
    rw [hd]
    refine ⟨⟨fun _ => by unfold validPage at hv; omega, fun _ => rfl⟩, fun _ => rfl,
      fun h => by simp [Outcome.panicked] at h⟩

/-- C6 (exhaustion result). On any core and in any state, `kalloc` returns
null exactly when the head of every one of the `NCPU` pools is null, and then
the state (every list head and all of memory) is unchanged; `kalloc` has no
`panic` path. -/
theorem C6_kalloc_null_iff (L : Layout) (cid : Nat) (s : Kmem) (hc : cid < L.NCPU) :
    ((kalloc L cid s).1 = 0 ↔ ∀ i, i < L.NCPU → s.freelist i = 0) ∧
    ((kalloc L cid s).1 = 0 → (kalloc L cid s).2 = s) := by
  rcases ring_first L cid s hc with h | ⟨k, hk, hne, hpre⟩
  · rw [kalloc_empty L cid s hc h]
    exact ⟨⟨fun _ => h, fun _ => rfl⟩, fun _ => rfl⟩
  · rw [kalloc_first L cid k s hc hk hne hpre]
    refine ⟨⟨fun h0 => absurd h0 hne, fun h0 => ?_⟩, fun h0 => absurd h0 hne⟩
    exact absurd (h0 _ (Nat.mod_lt _ (by omega))) hne

/-- C7 (work-stealing order). When some pool is non-empty, `kalloc` on core
`cid` returns the head of the first non-empty pool among
`cid, cid + 1, ..., NCPU - 1, 0, ..., cid - 1`, that is among the pools
`(cid + k) % NCPU` for `k = 0, 1, ...`. In particular, with core 0's pool empty
and core 1's pool holding the single page `page`, `kalloc` on core 0 returns
`page`, which is not null. -/
theorem C7_work_stealing_order (L : Layout) (s : Kmem) :
    (∀ cid, cid < L.NCPU → (∃ i, i < L.NCPU ∧ s.freelist i ≠ 0) →
      ∃ k, k < L.NCPU ∧ s.freelist ((cid + k) % L.NCPU) ≠ 0 ∧
        (∀ k', k' < k → s.freelist ((cid + k') % L.NCPU) = 0) ∧
        (kalloc L cid s).1 = s.freelist ((cid + k) % L.NCPU)) ∧
    (∀ page, 1 < L.NCPU → s.freelist 0 = 0 → chain s.mem (s.freelist 1) [page] →
      (kalloc L 0 s).1 = page ∧ page ≠ 0) := by
  constructor
  · intro cid hc ⟨i, hi, hne⟩
    rcases ring_first L cid s hc with h | ⟨k, hk, hnek, hpre⟩
    · exact absurd (h i hi) hne
    · exact ⟨k, hk, hnek, hpre, by rw [kalloc_first L cid k s hc hk hnek hpre]⟩
  · intro page hN h0 hch
    obtain ⟨e, hp0, _⟩ := hch
    have hm1 : (0 + 1) % L.NCPU = 1 := by rw [Nat.zero_add]; exact Nat.mod_eq_of_lt hN
    have hm0 : ∀ k', k' < 1 → s.freelist ((0 + k') % L.NCPU) = 0 := by
      intro k' hk'
      have : k' = 0 := by omega
      subst this
      rw [Nat.zero_add, Nat.zero_mod]; exact h0
    have hk := kalloc_first L 0 1 s (by omega) hN (by rw [hm1, e]; exact hp0) hm0
    rw [hk, hm1, e]
    exact ⟨rfl, hp0⟩

/-- C9 (free pushes on the caller's pool head), as amended. On a pool bank that
represents the lists `ls`, `kfree` of a valid page that is on no free list, on
core `cid`, completes; afterwards the head of pool `cid` is `pa`, the link of
`pa` is the previous head, pool `cid`'s list is `pa` followed by its previous
list, and every other pool keeps its list. -/
theorem C9_kfree_push (L : Layout) (hL : L.sane) (s : Kmem) (ls : Nat → List Nat)
    (cid pa : Nat) (hr : Rep L s ls) (hc : cid < L.NCPU) (hv : validPage L pa)
    (hn : pa ∉ allFree L ls) :
    ∃ s', kfree L cid pa s = Outcome.done s' ∧ s'.freelist cid = pa ∧
      readNext s'.mem pa = s.freelist cid ∧
      ∃ ls', Rep L s' ls' ∧ ls' cid = pa :: ls cid ∧ ∀ i, i ≠ cid → ls' i = ls i := by
  refine ⟨pushHead s cid pa, kfree_done L cid pa s hv, by simp [pushHead, setHead],
    readNext_writeNext _ pa _ (hr.head_lt hL cid hc),
    setList ls cid (pa :: ls cid), pushHead_rep L hL s ls cid pa hr hc hv hn,
    by simp [setList], ?_⟩
  intro i hi
  simp [setList, hi]

/-- C9, the claim as stated fails: with pool 1 holding `0x87fff000` then
`0x87ffe000` and pool 0 empty, `kfree(0x87fff000)` on core 0 passes the check
and completes, and pool 1, which is not the caller's pool, no longer holds
its previous list: it is left with `0x87fff000` alone. -/
theorem C9_other_pool_changed :
    chain (kfreeSeq demoLayout [(1, 0x87ffe000), (1, 0x87fff000)] bootState).state.mem
      ((kfreeSeq demoLayout [(1, 0x87ffe000), (1, 0x87fff000)] bootState).state.freelist 1)
      [0x87fff000, 0x87ffe000] ∧
    validPage demoLayout 0x87fff000 ∧
    (kfree demoLayout 0 0x87fff000
      (kfreeSeq demoLayout [(1, 0x87ffe000), (1, 0x87fff000)] bootState).state).panicked
        = false ∧
    ¬ chain
      (kfree demoLayout 0 0x87fff000
        (kfreeSeq demoLayout [(1, 0x87ffe000), (1, 0x87fff000)] bootState).state).state.mem
      ((kfree demoLayout 0 0x87fff000
        (kfreeSeq demoLayout [(1, 0x87ffe000), (1, 0x87fff000)] bootState).state).state.freelist 1)
      [0x87fff000, 0x87ffe000] ∧
    chain
      (kfree demoLayout 0 0x87fff000
        (kfreeSeq demoLayout [(1, 0x87ffe000), (1, 0x87fff000)] bootState).state).state.mem
      ((kfree demoLayout 0 0x87fff000
        (kfreeSeq demoLayout [(1, 0x87ffe000), (1, 0x87fff000)] bootState).state).state.freelist 1)
      [0x87fff000] := by
  decide

/-- C4 (alignment and range invariant), as amended. After `kinit` from empty
pools and any sequence of `kalloc` calls and `kfree` calls of currently
allocated pages, on any cores, `kinit` has not panicked, every pool is a list
of pages that are multiples of `PGSIZE` within `[end, PHYSTOP)`, and whatever
a further `kalloc` returns is null or such a page. -/
theorem C4_alignment_range (L : Layout) (hL : L.sane) (hB : L.bootable)
    (cpus : Nat → Nat) (hcpus : ∀ k, cpus k < L.NCPU)
    (fuel : Nat) (hfuel : L.PHYSTOP / PGSIZE < fuel)
    (s : Kmem) (hs : ∀ i, i < L.NCPU → s.freelist i = 0)
    (calls : List Call) (hcalls : permitted L ⟨kinitState L cpus fuel s, []⟩ calls) :
    (kinit L cpus fuel s).map (fun x => x.2.panicked) = some false ∧
    ∃ ls : Nat → List Nat,
      (∀ i, i < L.NCPU →
        chain (run L ⟨kinitState L cpus fuel s, []⟩ calls).kmem.mem
          ((run L ⟨kinitState L cpus fuel s, []⟩ calls).kmem.freelist i) (ls i)) ∧
      (∀ i a, i < L.NCPU → a ∈ ls i → a % PGSIZE = 0 ∧ L.kend ≤ a ∧ a < L.PHYSTOP) ∧
      ∀ cid, cid < L.NCPU →
        (kalloc L cid (run L ⟨kinitState L cpus fuel s, []⟩ calls).kmem).1 ≠ 0 →
        (kalloc L cid (run L ⟨kinitState L cpus fuel s, []⟩ calls).kmem).1 % PGSIZE = 0 ∧
        L.kend ≤ (kalloc L cid (run L ⟨kinitState L cpus fuel s, []⟩ calls).kmem).1 ∧
        (kalloc L cid (run L ⟨kinitState L cpus fuel s, []⟩ calls).kmem).1 < L.PHYSTOP := by
  obtain ⟨hk, hinv⟩ := kinit_inv L hL hB cpus hcpus fuel hfuel s hs
  obtain ⟨ls, hr, _⟩ := run_inv L hL _ (pages_nodup _ _) (bootPages_valid L hB) calls _
    hinv hcalls
  refine ⟨by rw [hk]; rfl, ls, hr.chains,
    fun i a hi ha => hr.valid a ((mem_allFree L ls a).mpr ⟨i, hi, ha⟩), ?_⟩
  intro cid hc hnz
  rcases kalloc_rep L _ ls cid hr hc with ⟨_, hk0⟩ | ⟨j, r, t, hj, hls, _, hkr, _⟩
  · rw [hk0] at hnz
    exact absurd rfl hnz
  · rw [hkr]
    exact hr.valid r ((mem_allFree L ls r).mpr ⟨j, hj, by rw [hls]; exact List.mem_cons_self r t⟩)

/-- C4, the claim as stated fails: after `kinit` has seeded pool 0 with
`0x87ffe000` and `0x87fff000`, a `kfree(0x87fff000)` on core 0 (the page is
still on the free list) passes the check, and after two `kalloc` calls on core
0, which both return `0x87fff000`, the head of pool 0 is `0x0505050505050505`,
neither null nor a multiple of `PGSIZE` nor below `PHYSTOP`. -/
theorem C4_double_free_head :
    (kinit smallLayout (fun _ => 0) 4 bootState).map (fun x => (x.1, x.2.panicked))
      = some ([0x87ffe000, 0x87fff000], false) ∧
    (kfree smallLayout 0 0x87fff000
      (kinitState smallLayout (fun _ => 0) 4 bootState)).panicked = false ∧
    (run smallLayout ⟨kinitState smallLayout (fun _ => 0) 4 bootState, []⟩
      [Call.free 0 0x87fff000, Call.alloc 0, Call.alloc 0]).owned
      = [0x87fff000, 0x87fff000] ∧
    (run smallLayout ⟨kinitState smallLayout (fun _ => 0) 4 bootState, []⟩
      [Call.free 0 0x87fff000, Call.alloc 0, Call.alloc 0]).kmem.freelist 0
      = 0x0505050505050505 ∧
    0x0505050505050505 % PGSIZE ≠ 0 ∧ smallLayout.PHYSTOP ≤ 0x0505050505050505 := by
  decide

/-- C5 (page-state partition). After `kinit` from empty pools and any sequence
of `kalloc` calls and `kfree` calls of currently allocated pages, every page
seeded by `kinit` is in exactly one of two states: it occurs once in the list
of exactly one pool and is not allocated, or it is allocated and occurs in no
pool's list. -/
theorem C5_page_state_partition (L : Layout) (hL : L.sane) (hB : L.bootable)
    (cpus : Nat → Nat) (hcpus : ∀ k, cpus k < L.NCPU)
    (fuel : Nat) (hfuel : L.PHYSTOP / PGSIZE < fuel)
    (s : Kmem) (hs : ∀ i, i < L.NCPU → s.freelist i = 0)
    (calls : List Call) (hcalls : permitted L ⟨kinitState L cpus fuel s, []⟩ calls) :
    ∃ (seeded : List Nat) (ls : Nat → List Nat),
      (kinit L cpus fuel s).map Prod.fst = some seeded ∧
      (∀ i, i < L.NCPU →
        chain (run L ⟨kinitState L cpus fuel s, []⟩ calls).kmem.mem
          ((run L ⟨kinitState L cpus fuel s, []⟩ calls).kmem.freelist i) (ls i)) ∧
      ∀ p, p ∈ seeded →
        ((∃ i, i < L.NCPU ∧ (ls i).count p = 1 ∧ ∀ j, j < L.NCPU → j ≠ i → p ∉ ls j) ∧
          p ∉ (run L ⟨kinitState L cpus fuel s, []⟩ calls).owned) ∨
        ((∀ i, i < L.NCPU → p ∉ ls i) ∧
          p ∈ (run L ⟨kinitState L cpus fuel s, []⟩ calls).owned) := by
  obtain ⟨hk, hinv⟩ := kinit_inv L hL hB cpus hcpus fuel hfuel s hs
  obtain ⟨ls, hr, hp⟩ := run_inv L hL _ (pages_nodup _ _) (bootPages_valid L hB) calls _
    hinv hcalls
  refine ⟨_, ls, by rw [hk]; rfl, hr.chains, ?_⟩
  intro p hpm
  have hnd := hp.symm.nodup_iff.mp (pages_nodup (PGROUNDUP L.kend) (bootPages L))
  have hdis := List.disjoint_of_nodup_append hnd
  rcases List.mem_append.mp (hp.symm.subset hpm) with hfree | hown
  · left
    obtain ⟨i, hi, hpi⟩ := (mem_allFree L ls p).mp hfree
    have hfm := List.nodup_flatMap.mp hr.nodup
    refine ⟨⟨i, hi, List.count_eq_one_of_mem (hfm.1 i (List.mem_range.mpr hi)) hpi, ?_⟩,
      fun h => hdis hfree h⟩
    intro j hj hji hpj
    have hsym : Symmetric (Function.onFun List.Disjoint ls) := fun a b h => h.symm
    exact (hfm.2.forall hsym (List.mem_range.mpr hi) (List.mem_range.mpr hj)
      (fun e => hji e.symm)) hpi hpj
  · right
    exact ⟨fun i hi hpi => hdis ((mem_allFree L ls p).mpr ⟨i, hi, hpi⟩) hown, hown⟩

/-- C1 at a concrete input: two pages freed on cores 1 and 0 of the booted
layout, then two allocations on cores 3 and 7. -/
theorem C1_conservation_witness :
    ∃ s1, kfreeSeq demoLayout [(1, 0x87ffe000), (0, 0x87fff000)] bootState = Outcome.done s1 ∧
      ((kallocSeq demoLayout [3, 7] s1).1).Perm [0x87ffe000, 0x87fff000] ∧
      (∀ r, r ∈ (kallocSeq demoLayout [3, 7] s1).1 → r ≠ 0) ∧
      ∀ i, i < demoLayout.NCPU → (kallocSeq demoLayout [3, 7] s1).2.freelist i = 0 :=
  C1_conservation demoLayout (by decide) bootState (fun _ _ => rfl)
    [(1, 0x87ffe000), (0, 0x87fff000)] [3, 7] (by decide) (by decide) (by decide) rfl

/-- C2 at a concrete input: the layout with two whole pages, seeded on core 0,
allocated on cores 0 and 1. -/
theorem C2_exhaustion_boundary_witness :
    ∃ seeded s1, kinit smallLayout (fun _ => 0) 0x88001 bootState
        = some (seeded, Outcome.done s1) ∧
      seeded.length = bootPages smallLayout ∧
      (∀ r, r ∈ (kallocSeq smallLayout [0, 1] s1).1 → r ≠ 0) ∧
      (kallocSeq smallLayout [0, 1] s1).1.length = bootPages smallLayout ∧
      (kallocSeq smallLayout [0, 1] s1).1.Nodup ∧
      (kalloc smallLayout 2 (kallocSeq smallLayout [0, 1] s1).2).1 = 0 ∧
      ∀ a, a ∈ (kallocSeq smallLayout [0, 1] s1).1 →
        ∃ s3, kfree smallLayout 3 a (kalloc smallLayout 2 (kallocSeq smallLayout [0, 1] s1).2).2
            = Outcome.done s3 ∧
          (kalloc smallLayout 4 s3).1 ≠ 0 :=
  C2_exhaustion_boundary smallLayout (by decide) (by decide) (fun _ => 0) (fun _ => show 0 < 8 by decide)
    0x88001 (by decide) bootState (fun _ _ => rfl) [0, 1] (by decide) (by decide)
    2 3 4 (by decide) (by decide) (by decide)

/-- C3 at a concrete input: a misaligned address panics with the state
untouched, an aligned one in range does not. -/
theorem C3_kfree_panic_iff_witness :
    kfree demoLayout 0 0x87fff001 bootState = Outcome.panic bootState ∧
    kfree demoLayout 0 0x87fff000 bootState
      = Outcome.done (pushHead bootState 0 0x87fff000) :=
  ⟨(C3_kfree_panic_iff demoLayout 0 0x87fff001 bootState).2.1 (by decide),
   (C3_kfree_panic_iff demoLayout 0 0x87fff000 bootState).2.2 (by decide)⟩

/-- C4 at a concrete input: after boot on the layout with two whole pages, an
allocation on core 0, a free of the returned page on core 1 and an allocation
on core 3. -/
theorem C4_alignment_range_witness :
    (kinit smallLayout (fun _ => 0) 0x88001 bootState).map (fun x => x.2.panicked)
      = some false ∧
    permitted smallLayout ⟨kinitState smallLayout (fun _ => 0) 0x88001 bootState, []⟩
      [Call.alloc 0, Call.free 1 0x87fff000, Call.alloc 3] :=
  ⟨(C4_alignment_range smallLayout (by decide) (by decide) (fun _ => 0) (fun _ => show 0 < 8 by decide)
      0x88001 (by decide) bootState (fun _ _ => rfl)
      [Call.alloc 0, Call.free 1 0x87fff000, Call.alloc 3] (by decide)).1, by decide⟩

/-- C5 at a concrete input: after boot on the layout with two whole pages, an
allocation on core 0, a free of the returned page on core 1 and an allocation
on core 3. -/
theorem C5_page_state_partition_witness :
    ∃ (seeded : List Nat) (ls : Nat → List Nat),
      (kinit smallLayout (fun _ => 0) 0x88001 bootState).map Prod.fst = some seeded ∧
      (∀ i, i < smallLayout.NCPU →
        chain (run smallLayout ⟨kinitState smallLayout (fun _ => 0) 0x88001 bootState, []⟩
            [Call.alloc 0, Call.free 1 0x87fff000, Call.alloc 3]).kmem.mem
          ((run smallLayout ⟨kinitState smallLayout (fun _ => 0) 0x88001 bootState, []⟩
            [Call.alloc 0, Call.free 1 0x87fff000, Call.alloc 3]).kmem.freelist i) (ls i)) ∧
      ∀ p, p ∈ seeded →
        ((∃ i, i < smallLayout.NCPU ∧ (ls i).count p = 1 ∧
            ∀ j, j < smallLayout.NCPU → j ≠ i → p ∉ ls j) ∧
          p ∉ (run smallLayout ⟨kinitState smallLayout (fun _ => 0) 0x88001 bootState, []⟩
            [Call.alloc 0, Call.free 1 0x87fff000, Call.alloc 3]).owned) ∨
        ((∀ i, i < smallLayout.NCPU → p ∉ ls i) ∧
          p ∈ (run smallLayout ⟨kinitState smallLayout (fun _ => 0) 0x88001 bootState, []⟩
            [Call.alloc 0, Call.free 1 0x87fff000, Call.alloc 3]).owned) :=
  C5_page_state_partition smallLayout (by decide) (by decide) (fun _ => 0)
    (fun _ => show 0 < 8 by decide) 0x88001 (by decide) bootState (fun _ _ => rfl)
    [Call.alloc 0, Call.free 1 0x87fff000, Call.alloc 3] (by decide)

/-- C6 at a concrete input: `kalloc` on core 2 of the pool bank before boot. -/
theorem C6_kalloc_null_iff_witness :
    (kalloc demoLayout 2 bootState).1 = 0 ∧ (kalloc demoLayout 2 bootState).2 = bootState :=
  ⟨(C6_kalloc_null_iff demoLayout 2 bootState (by decide)).1.mpr (fun _ _ => rfl),
   (C6_kalloc_null_iff demoLayout 2 bootState (by decide)).2
     ((C6_kalloc_null_iff demoLayout 2 bootState (by decide)).1.mpr (fun _ _ => rfl))⟩

/-- C7 at a concrete input: core 0's pool is empty, core 1's pool holds the
single page `0x87fff000`, and `kalloc` on core 0 returns it. -/
theorem C7_work_stealing_order_witness :
    (kalloc demoLayout 0 (kfree demoLayout 1 0x87fff000 bootState).state).1 = 0x87fff000 ∧
      0x87fff000 ≠ 0 :=
  (C7_work_stealing_order demoLayout (kfree demoLayout 1 0x87fff000 bootState).state).2
    0x87fff000 (by decide) (by decide) (by decide)

/-- C9 at a concrete input: `kfree(0x87fff000)` on core 2 of the pool bank
before boot. -/
theorem C9_kfree_push_witness :
    ∃ s', kfree demoLayout 2 0x87fff000 bootState = Outcome.done s' ∧
      s'.freelist 2 = 0x87fff000 ∧
      readNext s'.mem 0x87fff000 = bootState.freelist 2 ∧
      ∃ ls', Rep demoLayout s' ls' ∧ ls' 2 = 0x87fff000 :: (fun _ => []) 2 ∧
        ∀ i, i ≠ 2 → ls' i = (fun _ => []) i :=
  C9_kfree_push demoLayout (by decide) bootState (fun _ => []) 2 0x87fff000
    (rep_empty demoLayout bootState (fun _ _ => rfl)) (by decide) (by decide)
    (by rw [allFree_nil]; exact List.not_mem_nil _)

theorem kallocLoopEv_snd (s : Kmem) (is : List Nat) :
    (kallocLoopEv s is).2 = kallocLoop s is := by
  induction is with
  | nil => rfl
  | cons i is ih =>
    by_cases h : s.freelist i = 0
    · simp [kallocLoopEv, kallocLoop, h, ih]
    · simp [kallocLoopEv, kallocLoop, h]

theorem kallocLoopEv_append (s : Kmem) (l₁ l₂ : List Nat) :
    kallocLoopEv s (l₁ ++ l₂)
      = match kallocLoopEv s l₁ with
        | (ev1, some res) => (ev1, some res)
        | (ev1, none) => (ev1 ++ (kallocLoopEv s l₂).1, (kallocLoopEv s l₂).2) := by
  induction l₁ with
  | nil => simp [kallocLoopEv]
  | cons i l₁ ih =>
    by_cases h : s.freelist i = 0
    · have e1 : kallocLoopEv s (i :: l₁ ++ l₂)
          = ([Event.acquire i, Event.readHead i, Event.release i]
              ++ (kallocLoopEv s (l₁ ++ l₂)).1, (kallocLoopEv s (l₁ ++ l₂)).2) := by
        simp [kallocLoopEv, h]
      have e2 : kallocLoopEv s (i :: l₁)
          = ([Event.acquire i, Event.readHead i, Event.release i]
              ++ (kallocLoopEv s l₁).1, (kallocLoopEv s l₁).2) := by
        simp [kallocLoopEv, h]
      rw [e1, e2, ih]
      cases hrec : kallocLoopEv s l₁ with
      | mk ev1 o =>
        cases o with
        | none => simp
        | some res => simp
    · simp [kallocLoopEv, h]

/-- The events of `kalloc` are those of one loop over the pools in ring order,
and its result is that of `kalloc`. -/
theorem kallocEv_eq (L : Layout) (cid : Nat) (s : Kmem) :
    kallocEv L cid s = ((kallocLoopEv s (ring L cid)).1, kalloc L cid s) := by
  rw [kalloc_eq, ← kallocLoopEv_snd]
  unfold kallocEv ring
  rw [kallocLoopEv_append]
  cases h1 : kallocLoopEv s (List.range' cid (L.NCPU - cid)) with
  | mk ev1 o1 =>
    cases o1 with
    | some res => rfl
    | none =>
      cases h2 : kallocLoopEv s (List.range cid) with
      | mk ev2 o2 =>
        cases o2 with
        | some res => rfl
        | none => rfl

theorem kfreeEv_snd (L : Layout) (cid pa : Nat) (s : Kmem) :
    (kfreeEv L cid pa s).2 = kfree L cid pa s := by
  unfold kfreeEv kfree
  split <;> rfl

theorem kallocLoopEv_disciplined (s : Kmem) (is : List Nat) :
    disciplined none (kallocLoopEv s is).1 = true := by
  induction is with
  | nil => rfl
  | cons i is ih =>
    by_cases h : s.freelist i = 0
    · simp [kallocLoopEv, h, disciplined, lockStep, ih]
    · simp [kallocLoopEv, h, disciplined, lockStep]

/-- The pools that a loop of `kalloc` visits: all of them when every head is
null, otherwise those up to and including the first whose head is not. -/
theorem kallocLoopEv_acquired (s : Kmem) (is : List Nat) :
    (kallocLoop s is = none ∧ acquired (kallocLoopEv s is).1 = is) ∨
    ∃ pre j post, is = pre ++ j :: post ∧ (∀ i, i ∈ pre → s.freelist i = 0) ∧
      s.freelist j ≠ 0 ∧ acquired (kallocLoopEv s is).1 = pre ++ [j] ∧
      kallocLoop s is = some (s.freelist j, popHead s j) := by
  induction is with
  | nil => left; exact ⟨rfl, rfl⟩
  | cons i is ih =>
    by_cases h : s.freelist i = 0
    · rcases ih with ⟨h1, h2⟩ | ⟨pre, j, post, e, hpre, hj, hacq, hres⟩
      · left
        refine ⟨by simp [kallocLoop, h, h1], ?_⟩
        simp [kallocLoopEv, h, acquired, h2]
      · right
        refine ⟨i :: pre, j, post, by rw [e]; rfl, ?_, hj, ?_, ?_⟩
        · intro x hx
          rcases List.mem_cons.mp hx with hx | hx
          · rw [hx]; exact h
          · exact hpre x hx
        · simp [kallocLoopEv, h, acquired, hacq]
        · simp [kallocLoop, h, hres]
    · right
      refine ⟨[], i, is, rfl, fun x hx => absurd hx (List.not_mem_nil x), h, ?_, ?_⟩
      · simp [kallocLoopEv, h, acquired]
      · simp [kallocLoop, h, popHead]

theorem ring_nodup (L : Layout) (cid : Nat) : (ring L cid).Nodup := by
  unfold ring
  rw [List.nodup_append]
  refine ⟨List.nodup_range' _ _, List.nodup_range _, ?_⟩
  intro a h1 h2
  rw [List.mem_range'_1] at h1
  rw [List.mem_range] at h2
  omega

theorem ring_perm (L : Layout) (cid : Nat) (hc : cid < L.NCPU) :
    (ring L cid).Perm (List.range L.NCPU) := by
  unfold ring
  have h : List.range L.NCPU = List.range cid ++ List.range' cid (L.NCPU - cid) := by
    rw [List.range_eq_range', List.range_eq_range']
    have := List.range'_append 0 cid (L.NCPU - cid) 1
    simp only [Nat.one_mul, Nat.zero_add] at this
    rw [this]
    congr 1
    omega
  rw [h]
  exact List.perm_append_comm

theorem kallocLoop_fill (s : Kmem) (is : List Nat) :
    ∀ r s', kallocLoop s is = some (r, s') →
      r ≠ 0 ∧ ∀ i, i < PGSIZE → s'.mem (r + i) = 5 := by
  induction is with
  | nil => intro r s' h; simp [kallocLoop] at h
  | cons j is ih =>
    intro r s' h
    by_cases hj : s.freelist j = 0
    · simp only [kallocLoop, hj, ne_eq, not_true_eq_false, if_false] at h
      exact ih r s' h
    · simp only [kallocLoop, hj, ne_eq, not_false_eq_true, if_true, Option.some.injEq,
        Prod.mk.injEq] at h
      obtain ⟨h1, h2⟩ := h
      subst h1 h2
      refine ⟨hj, fun i hi => ?_⟩
      have : s.freelist j ≤ s.freelist j + i ∧ s.freelist j + i < s.freelist j + PGSIZE := by
        omega
      simp only [memset, this, and_self, if_true]

/-- C11 (diagnostic fill). After a `kalloc` that returns a non-null page, each
of the `PGSIZE` bytes of that page is `5`, the bytes that held the link
included. A `kfree` of a valid page writes the link into a memory in which
each of the `PGSIZE` bytes of the page is `1`, and afterwards the bytes of the
page after the link are still `1`. The two fill bytes differ. -/
theorem C11_diagnostic_fill (L : Layout) (cid : Nat) (s : Kmem) :
    ((kalloc L cid s).1 ≠ 0 →
      ∀ i, i < PGSIZE → (kalloc L cid s).2.mem ((kalloc L cid s).1 + i) = 5) ∧
    (∀ pa, validPage L pa →
      kfree L cid pa s = Outcome.done
        { freelist := setHead s.freelist cid pa,
          mem := writeNext (memset s.mem pa 1 PGSIZE) pa (s.freelist cid) } ∧
      (∀ i, i < PGSIZE → memset s.mem pa 1 PGSIZE (pa + i) = 1) ∧
      (∀ i, 8 ≤ i → i < PGSIZE → (kfree L cid pa s).state.mem (pa + i) = 1)) ∧
    (5 : Nat) ≠ 1 := by
  refine ⟨?_, ?_, by decide⟩
  · intro hnz
    rw [kalloc_eq] at hnz ⊢
    cases hl : kallocLoop s (ring L cid) with
    | none =>
      rw [hl] at hnz
      exact absurd rfl hnz
    | some res =>
      exact (kallocLoop_fill s _ res.1 res.2 hl).2
  · intro pa hv
    have hd := kfree_done L cid pa s hv
    refine ⟨hd, ?_, ?_⟩
    · intro i hi
      have : pa ≤ pa + i ∧ pa + i < pa + PGSIZE := by omega
      simp only [memset, this, and_self, if_true]
    · intro i h8 hi
      rw [hd]
      have h1 : ¬ (pa ≤ pa + i ∧ pa + i < pa + 8) := by omega
      have h2 : pa ≤ pa + i ∧ pa + i < pa + PGSIZE := by omega
      show (if pa ≤ pa + i ∧ pa + i < pa + 8 then (s.freelist cid / 256 ^ (pa + i - pa)) % 256
        else if pa ≤ pa + i ∧ pa + i < pa + PGSIZE then 1 else s.mem (pa + i)) = 1
      rw [if_neg h1, if_pos h2]

/-- C13 (single-lock discipline). In the events of any `kalloc` call and of any
`kfree` call, a lock is acquired only while no lock is held, a pool's head is
read or written only while that pool's lock is held, the lock released is the
one held, and no lock is held when the call ends; the calls with events return
what `kalloc` and `kfree` return. -/
theorem C13_single_lock_discipline (L : Layout) (cid pa : Nat) (s : Kmem) :
    disciplined none (kallocEv L cid s).1 = true ∧
    (kallocEv L cid s).2 = kalloc L cid s ∧
    disciplined none (kfreeEv L cid pa s).1 = true ∧
    (kfreeEv L cid pa s).2 = kfree L cid pa s := by
  refine ⟨?_, ?_, ?_, kfreeEv_snd L cid pa s⟩
  · rw [kallocEv_eq]; exact kallocLoopEv_disciplined s _
  · rw [kallocEv_eq]
  · unfold kfreeEv
    split
    · rfl
    · simp [disciplined, lockStep]

/-- C14 (bounded scan). A `kalloc` call on core `cid` acquires the locks of an
initial part of the ring order from `cid`: at most `NCPU` pools, none twice.
When it returns null it has visited each of the `NCPU` pools once; when it
returns a page, the last pool visited is the one whose head it returns and
the pools visited before were empty. Both `kalloc` and `kfree` are total
functions. -/
theorem C14_bounded_scan (L : Layout) (cid : Nat) (s : Kmem) (hc : cid < L.NCPU) :
    (kallocEv L cid s).2 = kalloc L cid s ∧
    (∃ rest, ring L cid = acquired (kallocEv L cid s).1 ++ rest) ∧
    (acquired (kallocEv L cid s).1).length ≤ L.NCPU ∧
    (acquired (kallocEv L cid s).1).Nodup ∧
    (∀ i, i ∈ acquired (kallocEv L cid s).1 → i < L.NCPU) ∧
    ((kalloc L cid s).1 = 0 → (acquired (kallocEv L cid s).1).Perm (List.range L.NCPU)) ∧
    ((kalloc L cid s).1 ≠ 0 →
      ∃ pre j, acquired (kallocEv L cid s).1 = pre ++ [j] ∧
        s.freelist j = (kalloc L cid s).1 ∧ ∀ i, i ∈ pre → s.freelist i = 0) := by
  have hev : (kallocEv L cid s).1 = (kallocLoopEv s (ring L cid)).1 := by rw [kallocEv_eq]
  rw [hev]
  refine ⟨by rw [kallocEv_eq], ?_⟩
  rcases kallocLoopEv_acquired s (ring L cid) with
    ⟨hnone, hacq⟩ | ⟨pre, j, post, e, hpre, hj, hacq, hres⟩
  · have hk : kalloc L cid s = (0, s) := by rw [kalloc_eq, hnone]; rfl
    rw [hacq, hk]
    exact ⟨⟨[], by simp⟩, by rw [ring_length L cid hc], ring_nodup L cid,
      fun i hi => (mem_ring L cid i hc).mp hi, fun _ => ring_perm L cid hc,
      fun h => absurd rfl h⟩
  · have hk : kalloc L cid s = (s.freelist j, popHead s j) := by rw [kalloc_eq, hres]; rfl
    have hpref : ring L cid = (pre ++ [j]) ++ post := by rw [e]; simp
    have hsub : (pre ++ [j]).Sublist (ring L cid) := by
      rw [hpref]; exact List.sublist_append_left _ _
    rw [hacq, hk]
    refine ⟨⟨post, hpref⟩, ?_, hsub.nodup (ring_nodup L cid),
      fun i hi => (mem_ring L cid i hc).mp (hsub.subset hi), fun h => absurd h hj,
      fun _ => ⟨pre, j, rfl, rfl, hpre⟩⟩
    have := hsub.length_le
    rw [ring_length L cid hc] at this
    exact this

/-! ## Calls that all run on one core -/

theorem tagCalls_const (cpus : Nat → Nat) (c : Nat) (h : ∀ k, cpus k = c) (l : List Nat) :
    ∀ k, tagCalls cpus k l = l.map (fun a => (c, a)) := by
  induction l with
  | nil => intro k; rfl
  | cons a l ih => intro k; simp only [tagCalls, List.map_cons, h k, ih]

/-- A sequence of `kfree` calls that ends without `panic` was passed valid
pages only. -/
theorem kfreeSeq_valid_of_done (L : Layout) (calls : List (Nat × Nat)) :
    ∀ s, (kfreeSeq L calls s).panicked = false → ∀ x, x ∈ calls → validPage L x.2 := by
  induction calls with
  | nil => intro s _ x hx; cases hx
  | cons c rest ih =>
    intro s h x hx
    by_cases hv : validPage L c.2
    · simp only [kfreeSeq, kfree_done L c.1 c.2 s hv] at h
      rcases List.mem_cons.mp hx with e | hr
      · rw [e]; exact hv
      · exact ih _ h x hr
    · simp only [kfreeSeq, kfree_panic L c.1 c.2 s hv, Outcome.panicked] at h
      cases h

/-- A sequence of `kfree` calls with valid pages does not panic. -/
theorem kfreeSeq_done_of_valid (L : Layout) (calls : List (Nat × Nat)) :
    ∀ s, (∀ x, x ∈ calls → validPage L x.2) → (kfreeSeq L calls s).panicked = false := by
  induction calls with
  | nil => intro s _; rfl
  | cons c rest ih =>
    intro s h
    simp only [kfreeSeq, kfree_done L c.1 c.2 s (h c (List.mem_cons_self c rest))]
    exact ih _ (fun x hx => h x (List.mem_cons_of_mem c hx))

/-- Frees on one core `c` of pages that are not yet on pool `c`'s list stack
them on that list, last page first, whatever the other pools hold, and leave
the other heads as they are. -/
theorem kfreeSeq_same_core (L : Layout) (hL : L.sane) (c : Nat) (ps : List Nat) :
    ∀ (s : Kmem) (l : List Nat), chain s.mem (s.freelist c) l →
      (∀ a, a ∈ l → validPage L a) → (∀ a, a ∈ ps → validPage L a) → (ps ++ l).Nodup →
      ∃ s', kfreeSeq L (ps.map (fun a => (c, a))) s = Outcome.done s' ∧
        chain s'.mem (s'.freelist c) (ps.reverse ++ l) ∧
        ∀ i, i ≠ c → s'.freelist i = s.freelist i := by
  induction ps with
  | nil =>
    intro s l hch _ _ _
    exact ⟨s, rfl, hch, fun _ _ => rfl⟩
  | cons a ps ih =>
    intro s l hch hvl hvp hnd
    have hva : validPage L a := hvp a (List.mem_cons_self a ps)
    simp only [List.cons_append, List.nodup_cons] at hnd
    have hal : a ∉ l := fun h => hnd.1 (List.mem_append_right _ h)
    have ha0 : a ≠ 0 := by
      obtain ⟨h0, _⟩ := hL
      obtain ⟨_, h2, _⟩ := hva
      omega
    have hlt : s.freelist c < WORD := by
      cases l with
      | nil =>
        have h0 : s.freelist c = 0 := hch
        rw [h0]; unfold WORD; omega
      | cons b l =>
        obtain ⟨e, _, _⟩ := hch
        obtain ⟨_, _, h3⟩ := hvl b (List.mem_cons_self b l)
        obtain ⟨_, hP⟩ := hL
        omega
    have hch1 : chain (pushHead s c a).mem ((pushHead s c a).freelist c) (a :: l) := by
      have hhead : (pushHead s c a).freelist c = a := by simp [pushHead, setHead]
      have hlink : readNext (pushHead s c a).mem a = s.freelist c :=
        readNext_writeNext _ a _ hlt
      rw [hhead]
      refine ⟨rfl, ha0, ?_⟩
      rw [hlink]
      exact chain_congr s.mem _ l _ hch (fun b hb =>
        readNext_kfree_other s.mem a _ b hva.1 (hvl b hb).1 (fun e => hal (e ▸ hb)))
    obtain ⟨s', hk, hch', hfr⟩ := ih (pushHead s c a) (a :: l) hch1
      (fun b hb => by
        rcases List.mem_cons.mp hb with e | h
        · rw [e]; exact hva
        · exact hvl b h)
      (fun b hb => hvp b (List.mem_cons_of_mem a hb))
      (List.perm_middle.symm.nodup_iff.mp (List.nodup_cons.mpr hnd))
    refine ⟨s', ?_, ?_, ?_⟩
    · simp only [List.map_cons, kfreeSeq, kfree_done L c a s hva]
      exact hk
    · rw [List.reverse_cons, List.append_assoc]
      exact hch'
    · intro i hi
      rw [hfr i hi]
      simp [pushHead, setHead, hi]

/-- Allocations on core `c` while its own pool is not empty return that pool's
pages in list order. -/
theorem kallocSeq_same_core (L : Layout) (c : Nat) (hc : c < L.NCPU) (l : List Nat) :
    ∀ s, chain s.mem (s.freelist c) l → (∀ a, a ∈ l → a % PGSIZE = 0) → l.Nodup →
      (kallocSeq L (List.replicate l.length c) s).1 = l := by
  induction l with
  | nil => intro s _ _ _; rfl
  | cons r t ih =>
    intro s hch hal hnd
    obtain ⟨e, hr0, hct⟩ := hch
    rw [List.nodup_cons] at hnd
    have hm : (c + 0) % L.NCPU = c := by rw [Nat.add_zero]; exact Nat.mod_eq_of_lt hc
    have hk := kalloc_first L c 0 s hc (by omega) (by rw [hm, e]; exact hr0)
      (fun k' hk' => absurd hk' (Nat.not_lt_zero k'))
    rw [hm] at hk
    have hch1 : chain (popHead s c).mem ((popHead s c).freelist c) t := by
      have hh : (popHead s c).freelist c = readNext s.mem r := by
        simp [popHead, setHead, e]
      rw [hh]
      refine chain_congr s.mem _ t _ hct (fun b hb => ?_)
      simp only [popHead, e]
      exact readNext_kalloc_other s.mem r b (hal r (List.mem_cons_self r t))
        (hal b (List.mem_cons_of_mem r hb)) (fun eb => hnd.1 (eb ▸ hb))
    have hrec := ih (popHead s c) hch1 (fun b hb => hal b (List.mem_cons_of_mem r hb)) hnd.2
    simp only [List.length_cons, List.replicate_succ, kallocSeq, hk, hrec, e]

theorem mem_pages_iff (p n a : Nat) (hp : p % PGSIZE = 0) :
    a ∈ pages p n ↔ a % PGSIZE = 0 ∧ p ≤ a ∧ a < p + n * PGSIZE := by
  rw [mem_pages]
  unfold PGSIZE at *
  constructor
  · rintro ⟨i, hi, e⟩
    omega
  · rintro ⟨h1, h2, h3⟩
    exact ⟨(a - p) / 4096, by omega, by omega⟩

theorem PGROUNDUP_mod (a : Nat) : PGROUNDUP a % PGSIZE = 0 := by
  unfold PGROUNDUP
  exact Nat.mul_mod_left _ _

theorem PGROUNDUP_lt (a : Nat) : PGROUNDUP a < WORD := by
  unfold PGROUNDUP
  have h1 : (a + PGSIZE - 1) % WORD < WORD := Nat.mod_lt _ (by unfold WORD; omega)
  have h2 : (a + PGSIZE - 1) % WORD / PGSIZE * PGSIZE ≤ (a + PGSIZE - 1) % WORD :=
    Nat.div_mul_le_self _ _
  omega

/-- From any state `kinit` runs the `kfree` calls on the whole pages between
the end of the kernel and `PHYSTOP`, in ascending order. -/
theorem kinit_run (L : Layout) (hB : L.bootable) (cpus : Nat → Nat) (fuel : Nat)
    (hfuel : L.PHYSTOP / PGSIZE < fuel) (s : Kmem) :
    kinit L cpus fuel s
      = some (pages (PGROUNDUP L.kend) (bootPages L),
          kfreeSeq L (tagCalls cpus 0 (pages (PGROUNDUP L.kend) (bootPages L))) s) := by
  have hpos : 0 < fuel := Nat.lt_of_le_of_lt (Nat.zero_le _) hfuel
  obtain ⟨f, rfl⟩ : ∃ f, fuel = f + 1 := ⟨fuel - 1, by omega⟩
  have hB' := hB
  obtain ⟨h1, h2⟩ := hB'
  have hr : PGROUNDUP L.kend = (L.kend + PGSIZE - 1) / PGSIZE * PGSIZE := by
    unfold PGROUNDUP
    rw [Nat.mod_eq_of_lt (by unfold PGSIZE WORD at *; omega)]
  have hrun := freerangeLoop_valid L cpus L.PHYSTOP (by unfold PGSIZE WORD at *; omega) f 0
    (PGROUNDUP L.kend) s (PGROUNDUP_mod _)
    (by rw [hr]; unfold PGSIZE WORD at *; omega)
    (by unfold PGSIZE at *; omega) (bootPages_valid L hB)
  unfold kinit freerange
  unfold bootPages
  rw [hrun]

/-- C15 (bootstrap skew). When every `kfree` call of `kinit` reads the same
core `c` and the pools are empty before, `kinit` ends without `panic`, pool
`c`'s list holds exactly the whole pages between `PGROUNDUP(end)` and
`PHYSTOP`, each once, and the head of every other pool is still null. -/
theorem C15_bootstrap_skew (L : Layout) (hL : L.sane) (hB : L.bootable)
    (cpus : Nat → Nat) (c : Nat) (hc : c < L.NCPU) (hcpus : ∀ k, cpus k = c)
    (fuel : Nat) (hfuel : L.PHYSTOP / PGSIZE < fuel)
    (s : Kmem) (hs : ∀ i, i < L.NCPU → s.freelist i = 0) :
    ∃ (seeded : List Nat) (s1 : Kmem) (l : List Nat),
      kinit L cpus fuel s = some (seeded, Outcome.done s1) ∧
      chain s1.mem (s1.freelist c) l ∧ l.Nodup ∧ l.Perm seeded ∧
      (∀ a, a ∈ l ↔ a % PGSIZE = 0 ∧ PGROUNDUP L.kend ≤ a ∧ a + PGSIZE ≤ L.PHYSTOP) ∧
      ∀ i, i < L.NCPU → i ≠ c → s1.freelist i = 0 := by
  have hrun := kinit_run L hB cpus fuel hfuel s
  rw [tagCalls_const cpus c hcpus] at hrun
  obtain ⟨s1, hk, hch, hfr⟩ := kfreeSeq_same_core L hL c
    (pages (PGROUNDUP L.kend) (bootPages L)) s [] (hs c hc)
    (fun a ha => by cases ha) (bootPages_valid L hB)
    (by rw [List.append_nil]; exact pages_nodup _ _)
  rw [List.append_nil] at hch
  rw [hk] at hrun
  refine ⟨_, s1, _, hrun, hch, List.nodup_reverse.mpr (pages_nodup _ _),
    List.reverse_perm _, ?_, fun i hi hic => by rw [hfr i hic]; exact hs i hi⟩
  intro a
  rw [List.mem_reverse, mem_pages_iff _ _ _ (PGROUNDUP_mod _)]
  have hm := PGROUNDUP_mod L.kend
  unfold bootPages
  unfold PGSIZE at *
  constructor
  · rintro ⟨h1, h2, h3⟩
    exact ⟨h1, h2, by omega⟩
  · rintro ⟨h1, h2, h3⟩
    exact ⟨h1, h2, by omega⟩

/-- C16 (free/allocate round trip), as amended. On a pool bank that represents
the lists `ls`, `kfree` of a valid page that is on no free list, on core
`cid`, followed by `kalloc` on the same core returns that page, and the pool
bank again represents `ls`, with every head as before the `kfree`. -/
theorem C16_free_alloc_round_trip (L : Layout) (hL : L.sane) (s : Kmem)
    (ls : Nat → List Nat) (cid pa : Nat) (hr : Rep L s ls) (hc : cid < L.NCPU)
    (hv : validPage L pa) (hn : pa ∉ allFree L ls) :
    ∃ s1, kfree L cid pa s = Outcome.done s1 ∧
      (kalloc L cid s1).1 = pa ∧
      Rep L (kalloc L cid s1).2 ls ∧
      ∀ i, (kalloc L cid s1).2.freelist i = s.freelist i := by
  have hr1 := pushHead_rep L hL s ls cid pa hr hc hv hn
  have hhead : (pushHead s cid pa).freelist cid = pa := by simp [pushHead, setHead]
  have hpa0 : pa ≠ 0 := by
    obtain ⟨h0, _⟩ := hL
    obtain ⟨_, h2, _⟩ := hv
    omega
  have hm : (cid + 0) % L.NCPU = cid := by rw [Nat.add_zero]; exact Nat.mod_eq_of_lt hc
  have hk := kalloc_first L cid 0 (pushHead s cid pa) hc (by omega)
    (by rw [hm, hhead]; exact hpa0) (fun k' hk' => absurd hk' (Nat.not_lt_zero k'))
  rw [hm, hhead] at hk
  have hr2 := popHead_rep L (pushHead s cid pa) _ cid pa (ls cid) hr1 hc (by simp [setList])
  rw [setList_setList] at hr2
  have hlink : readNext (pushHead s cid pa).mem pa = s.freelist cid :=
    readNext_writeNext _ pa _ (hr.head_lt hL cid hc)
  refine ⟨pushHead s cid pa, kfree_done L cid pa s hv, by rw [hk], by rw [hk]; exact hr2, ?_⟩
  intro i
  rw [hk]
  by_cases hi : i = cid
  · subst hi
    simp only [popHead, setHead, if_true, hhead, hlink]
  · simp [popHead, pushHead, setHead, hi]

/-- C16, the claim as stated fails: with pool 1 holding `0x87fff000` then
`0x87ffe000`, `kfree(0x87fff000)` on core 0 passes the check, the `kalloc` on
core 0 that follows returns `0x87fff000`, and pool 1 does not hold its
previous list any more: its head is `0x87fff000` still, whose link is now the
fill pattern. -/
theorem C16_round_trip_breaks_other_pool :
    chain (kfreeSeq demoLayout [(1, 0x87ffe000), (1, 0x87fff000)] bootState).state.mem
      ((kfreeSeq demoLayout [(1, 0x87ffe000), (1, 0x87fff000)] bootState).state.freelist 1)
      [0x87fff000, 0x87ffe000] ∧
    validPage demoLayout 0x87fff000 ∧
    (kfree demoLayout 0 0x87fff000
      (kfreeSeq demoLayout [(1, 0x87ffe000), (1, 0x87fff000)] bootState).state).panicked
        = false ∧
    (kalloc demoLayout 0 (kfree demoLayout 0 0x87fff000
      (kfreeSeq demoLayout [(1, 0x87ffe000), (1, 0x87fff000)] bootState).state).state).1
        = 0x87fff000 ∧
    (kalloc demoLayout 0 (kfree demoLayout 0 0x87fff000
      (kfreeSeq demoLayout [(1, 0x87ffe000), (1, 0x87fff000)] bootState).state).state).2.freelist 1
        = 0x87fff000 ∧
    readNext (kalloc demoLayout 0 (kfree demoLayout 0 0x87fff000
      (kfreeSeq demoLayout [(1, 0x87ffe000), (1, 0x87fff000)] bootState).state).state).2.mem
        0x87fff000 = 0x0505050505050505 ∧
    ¬ chain
      (kalloc demoLayout 0 (kfree demoLayout 0 0x87fff000
        (kfreeSeq demoLayout [(1, 0x87ffe000), (1, 0x87fff000)] bootState).state).state).2.mem
      ((kalloc demoLayout 0 (kfree demoLayout 0 0x87fff000
        (kfreeSeq demoLayout [(1, 0x87ffe000), (1, 0x87fff000)] bootState).state).state).2.freelist 1)
      [0x87fff000, 0x87ffe000] := by
  decide

theorem kfree_ok_iff (L : Layout) (cid pa : Nat) (s : Kmem) :
    (kfree L cid pa s).panicked = false ↔ validPage L pa := by
  by_cases hv : validPage L pa
  · rw [kfree_done L cid pa s hv]
    exact ⟨fun _ => hv, fun _ => rfl⟩
  · rw [kfree_panic L cid pa s hv]
    exact ⟨fun h => by simp [Outcome.panicked] at h, fun h => absurd h hv⟩

/-- C17 (accepted set equals seeded set). With `PHYSTOP` a multiple of
`PGSIZE`, `kinit` ends without `panic`, whether the end of the kernel is
page-aligned or not, and the addresses that pass the check of `kfree` are
exactly the addresses that `kinit` passes to `kfree`. -/
theorem C17_accepted_equals_seeded (L : Layout) (hB : L.bootable)
    (hP : L.PHYSTOP % PGSIZE = 0) (cpus : Nat → Nat) (fuel : Nat)
    (hfuel : L.PHYSTOP / PGSIZE < fuel) (s : Kmem) :
    ∃ (calls : List Nat) (s1 : Kmem),
      kinit L cpus fuel s = some (calls, Outcome.done s1) ∧
      (∀ a, (a % PGSIZE = 0 ∧ L.kend ≤ a ∧ a < L.PHYSTOP) ↔ a ∈ calls) ∧
      ∀ a cid s', (kfree L cid a s').panicked = false ↔ a ∈ calls := by
  have hrun := kinit_run L hB cpus fuel hfuel s
  have hnp := kfreeSeq_done_of_valid L
    (tagCalls cpus 0 (pages (PGROUNDUP L.kend) (bootPages L))) s
    (fun x hx => by
      obtain ⟨_, _, hm⟩ := tagCalls_fst cpus _ 0 x hx
      exact bootPages_valid L hB x.2 hm)
  have hiff : ∀ a, validPage L a ↔ a ∈ pages (PGROUNDUP L.kend) (bootPages L) := by
    intro a
    constructor
    · intro hv
      rw [mem_pages_iff _ _ _ (PGROUNDUP_mod _)]
      obtain ⟨h1, h2⟩ := hB
      have hr : PGROUNDUP L.kend = (L.kend + PGSIZE - 1) / PGSIZE * PGSIZE := by
        unfold PGROUNDUP
        rw [Nat.mod_eq_of_lt (by unfold PGSIZE WORD at *; omega)]
      obtain ⟨a1, a2, a3⟩ := hv
      unfold bootPages
      rw [hr]
      unfold PGSIZE at *
      omega
    · exact bootPages_valid L hB a
  cases hout : kfreeSeq L (tagCalls cpus 0 (pages (PGROUNDUP L.kend) (bootPages L))) s with
  | panic s' =>
    rw [hout] at hnp
    simp [Outcome.panicked] at hnp
  | done s1 =>
    rw [hout] at hrun
    exact ⟨_, s1, hrun, hiff, fun a cid s' => (kfree_ok_iff L cid a s').trans (hiff a)⟩

/-- A `kfree` of the page at the head of the caller's own pool passes the
check whenever the page is valid: the page becomes its own successor, and the
next two `kalloc` calls on that core both return it. -/
theorem kfree_head_again (L : Layout) (hL : L.sane) (s : Kmem) (cid pa : Nat)
    (hc : cid < L.NCPU) (hv : validPage L pa) (hh : s.freelist cid = pa) :
    kfree L cid pa s = Outcome.done (pushHead s cid pa) ∧
      (pushHead s cid pa).freelist cid = pa ∧
      readNext (pushHead s cid pa).mem pa = pa ∧
      (kalloc L cid (pushHead s cid pa)).1 = pa ∧
      (kalloc L cid (kalloc L cid (pushHead s cid pa)).2).1 = pa := by
  have hpa0 : pa ≠ 0 := by
    obtain ⟨h0, _⟩ := hL
    obtain ⟨_, h2, _⟩ := hv
    omega
  have hlt : s.freelist cid < WORD := by
    obtain ⟨_, hP⟩ := hL
    obtain ⟨_, _, h3⟩ := hv
    omega
  have hhead : (pushHead s cid pa).freelist cid = pa := by simp [pushHead, setHead]
  have hlink : readNext (pushHead s cid pa).mem pa = pa := by
    have := readNext_writeNext (memset s.mem pa 1 PGSIZE) pa (s.freelist cid) hlt
    rw [hh] at this
    simp only [pushHead, hh]
    exact this
  have hm : (cid + 0) % L.NCPU = cid := by rw [Nat.add_zero]; exact Nat.mod_eq_of_lt hc
  have hk1 := kalloc_first L cid 0 (pushHead s cid pa) hc (by omega)
    (by rw [hm, hhead]; exact hpa0) (fun k' hk' => absurd hk' (Nat.not_lt_zero k'))
  rw [hm, hhead] at hk1
  have hhead2 : (popHead (pushHead s cid pa) cid).freelist cid = pa := by
    simp only [popHead, setHead, if_true, hhead, hlink]
  have hk2 := kalloc_first L cid 0 (popHead (pushHead s cid pa) cid) hc (by omega)
    (by rw [hm, hhead2]; exact hpa0) (fun k' hk' => absurd hk' (Nat.not_lt_zero k'))
  rw [hm, hhead2] at hk2
  refine ⟨kfree_done L cid pa s hv, hhead, hlink, by rw [hk1], by rw [hk1, hk2]⟩

/-- C18 (double free is not detected). After `kinit` on the layout with two
whole pages, `0x87fff000` is at the head of pool 0, before `0x87ffe000`. A
`kfree(0x87fff000)` on core 0 passes the check and completes: the page is the
head of pool 0 and its own successor, and two `kalloc` calls on core 0 in a
row both return it. A `kfree(0x87fff000)` on core 1 instead completes too and
leaves the page on the lists of pool 0 and of pool 1, and a `kalloc` on core 0
followed by one on core 1 both return it. -/
theorem C18_double_free_undetected :
    (kinit smallLayout (fun _ => 0) 4 bootState).map (fun x => (x.1, x.2.panicked))
      = some ([0x87ffe000, 0x87fff000], false) ∧
    chain (kinitState smallLayout (fun _ => 0) 4 bootState).mem
      ((kinitState smallLayout (fun _ => 0) 4 bootState).freelist 0)
      [0x87fff000, 0x87ffe000] ∧
    validPage smallLayout 0x87fff000 ∧
    (kfree smallLayout 0 0x87fff000 (kinitState smallLayout (fun _ => 0) 4 bootState)
        = Outcome.done (pushHead (kinitState smallLayout (fun _ => 0) 4 bootState) 0 0x87fff000) ∧
      (pushHead (kinitState smallLayout (fun _ => 0) 4 bootState) 0 0x87fff000).freelist 0
        = 0x87fff000 ∧
      readNext (pushHead (kinitState smallLayout (fun _ => 0) 4 bootState) 0 0x87fff000).mem
        0x87fff000 = 0x87fff000 ∧
      (kalloc smallLayout 0
        (pushHead (kinitState smallLayout (fun _ => 0) 4 bootState) 0 0x87fff000)).1
        = 0x87fff000 ∧
      (kalloc smallLayout 0 (kalloc smallLayout 0
        (pushHead (kinitState smallLayout (fun _ => 0) 4 bootState) 0 0x87fff000)).2).1
        = 0x87fff000) ∧
    (kfree smallLayout 1 0x87fff000
      (kinitState smallLayout (fun _ => 0) 4 bootState)).panicked = false ∧
    chain (pushHead (kinitState smallLayout (fun _ => 0) 4 bootState) 1 0x87fff000).mem
      ((pushHead (kinitState smallLayout (fun _ => 0) 4 bootState) 1 0x87fff000).freelist 0)
      [0x87fff000] ∧
    chain (pushHead (kinitState smallLayout (fun _ => 0) 4 bootState) 1 0x87fff000).mem
      ((pushHead (kinitState smallLayout (fun _ => 0) 4 bootState) 1 0x87fff000).freelist 1)
      [0x87fff000] ∧
    (kalloc smallLayout 0
      (pushHead (kinitState smallLayout (fun _ => 0) 4 bootState) 1 0x87fff000)).1
      = 0x87fff000 ∧
    (kalloc smallLayout 1 (kalloc smallLayout 0
      (pushHead (kinitState smallLayout (fun _ => 0) 4 bootState) 1 0x87fff000)).2).1
      = 0x87fff000 :=
  ⟨by decide, by decide, by decide,
    kfree_head_again smallLayout (by decide) (kinitState smallLayout (fun _ => 0) 4 bootState)
      0 0x87fff000 (by decide) (by decide) (by decide),
    by decide, by decide, by decide, by decide, by decide⟩

theorem pages_reverse (p n : Nat) :
    (pages p n).reverse = (List.range n).map (fun k => p + (n - 1 - k) * PGSIZE) := by
  unfold pages
  rw [← List.map_reverse, List.range_eq_range', List.reverse_range', ← List.range_eq_range',
    List.map_map]
  apply List.map_congr_left
  intro k _
  simp only [Function.comp, Nat.zero_add]

/-- C19 (bootstrap order). When every `kfree` call of
`freerange(pa_start, pa_end)` reads the same core `c` and pool `c` is empty
before, a run without `panic` has freed the `K = (pa_end - p0) / PGSIZE` whole
pages from `p0 = PGROUNDUP(pa_start)` on, ascending, and leaves pool `c`'s list
holding these `K` pages in strictly descending address order, the last page
freed at the head; `K` `kalloc` calls in a row on core `c` return
`p0 + (K - 1) * PGSIZE`, ..., `p0 + PGSIZE`, `p0` in this order. -/
theorem C19_bootstrap_order (L : Layout) (hL : L.sane) (cpus : Nat → Nat) (c : Nat)
    (hc : c < L.NCPU) (hcpus : ∀ k, cpus k = c) (fuel pa_start pa_end : Nat)
    (hfuel : pa_end / PGSIZE < fuel) (s : Kmem) (hs : s.freelist c = 0) :
    ∃ calls out, freerange L cpus fuel pa_start pa_end s = some (calls, out) ∧
      (out.panicked = false →
        calls = (List.range ((pa_end - PGROUNDUP pa_start) / PGSIZE)).map
          (fun k => PGROUNDUP pa_start + k * PGSIZE) ∧
        calls.length = (pa_end - PGROUNDUP pa_start) / PGSIZE ∧
        chain out.state.mem (out.state.freelist c)
          ((List.range ((pa_end - PGROUNDUP pa_start) / PGSIZE)).map (fun k =>
            PGROUNDUP pa_start + ((pa_end - PGROUNDUP pa_start) / PGSIZE - 1 - k) * PGSIZE)) ∧
        ((List.range ((pa_end - PGROUNDUP pa_start) / PGSIZE)).map (fun k =>
            PGROUNDUP pa_start + ((pa_end - PGROUNDUP pa_start) / PGSIZE - 1 - k) * PGSIZE)).Pairwise
          (fun a b => b < a) ∧
        (kallocSeq L (List.replicate ((pa_end - PGROUNDUP pa_start) / PGSIZE) c) out.state).1
          = (List.range ((pa_end - PGROUNDUP pa_start) / PGSIZE)).map (fun k =>
            PGROUNDUP pa_start + ((pa_end - PGROUNDUP pa_start) / PGSIZE - 1 - k) * PGSIZE)) := by
  have hpos : 0 < fuel := Nat.lt_of_le_of_lt (Nat.zero_le _) hfuel
  obtain ⟨f, rfl⟩ : ∃ f, fuel = f + 1 := ⟨fuel - 1, by omega⟩
  obtain ⟨calls, out, hrun, hcalls⟩ := freerangeLoop_spec L hL cpus pa_end f 0
    (PGROUNDUP pa_start) s (PGROUNDUP_mod _) (PGROUNDUP_lt _)
    (by unfold PGSIZE at *; omega)
  refine ⟨calls, out, hrun, fun hnp => ?_⟩
  have hc1 := hcalls hnp
  have hout := freerangeLoop_kfreeSeq L cpus pa_end (f + 1) 0 _ s calls out hrun
  rw [tagCalls_const cpus c hcpus] at hout
  have hval : ∀ a, a ∈ calls → validPage L a := by
    intro a ha
    have hx := kfreeSeq_valid_of_done L (calls.map (fun a => (c, a))) s
      (by rw [← hout]; exact hnp) (c, a) (List.mem_map.mpr ⟨a, ha, rfl⟩)
    exact hx
  have hnd : calls.Nodup := by rw [hc1]; exact pages_nodup _ _
  obtain ⟨s', hk, hch, _⟩ := kfreeSeq_same_core L hL c calls s [] hs
    (fun a ha => by cases ha) hval (by rw [List.append_nil]; exact hnd)
  rw [List.append_nil] at hch
  have hst : out.state = s' := by rw [hout, hk]; rfl
  rw [hst]
  have hlen : calls.length = (pa_end - PGROUNDUP pa_start) / PGSIZE := by
    rw [hc1, pages_length]
  have hrev : calls.reverse
      = (List.range ((pa_end - PGROUNDUP pa_start) / PGSIZE)).map (fun k =>
          PGROUNDUP pa_start + ((pa_end - PGROUNDUP pa_start) / PGSIZE - 1 - k) * PGSIZE) := by
    rw [hc1, pages_reverse]
  have hseq := kallocSeq_same_core L c hc calls.reverse s' hch
    (fun a ha => (hval a (List.mem_reverse.mp ha)).1) (List.nodup_reverse.mpr hnd)
  rw [List.length_reverse, hlen] at hseq
  have hpw : calls.reverse.Pairwise (fun a b => b < a) := by
    rw [List.pairwise_reverse, hc1]
    exact pages_pairwise _ _
  rw [← hrev]
  exact ⟨hc1, hlen, hch, hpw, hseq⟩

/-- C11 at a concrete input: the first and the last byte of the page that
`kalloc` on core 0 takes from core 1's pool. -/
theorem C11_diagnostic_fill_witness :
    (kalloc demoLayout 0 (kfree demoLayout 1 0x87fff000 bootState).state).2.mem
        ((kalloc demoLayout 0 (kfree demoLayout 1 0x87fff000 bootState).state).1 + 0) = 5 ∧
    (kalloc demoLayout 0 (kfree demoLayout 1 0x87fff000 bootState).state).2.mem
        ((kalloc demoLayout 0 (kfree demoLayout 1 0x87fff000 bootState).state).1 + 4095) = 5 :=
  ⟨(C11_diagnostic_fill demoLayout 0 (kfree demoLayout 1 0x87fff000 bootState).state).1
      (by decide) 0 (by decide),
   (C11_diagnostic_fill demoLayout 0 (kfree demoLayout 1 0x87fff000 bootState).state).1
      (by decide) 4095 (by decide)⟩

/-- C14 at a concrete input: `kalloc` on core 2 of the pool bank before boot
fails after one visit to each pool. -/
theorem C14_bounded_scan_witness :
    (acquired (kallocEv demoLayout 2 bootState).1).Perm (List.range demoLayout.NCPU) :=
  (C14_bounded_scan demoLayout 2 bootState (by decide)).2.2.2.2.2.1 (by decide)

/-- C15 at a concrete input: boot on core 3 of the layout with two whole
pages. -/
theorem C15_bootstrap_skew_witness :
    ∃ (seeded : List Nat) (s1 : Kmem) (l : List Nat),
      kinit smallLayout (fun _ => 3) 0x88001 bootState = some (seeded, Outcome.done s1) ∧
      chain s1.mem (s1.freelist 3) l ∧ l.Nodup ∧ l.Perm seeded ∧
      (∀ a, a ∈ l ↔
        a % PGSIZE = 0 ∧ PGROUNDUP smallLayout.kend ≤ a ∧ a + PGSIZE ≤ smallLayout.PHYSTOP) ∧
      ∀ i, i < smallLayout.NCPU → i ≠ 3 → s1.freelist i = 0 :=
  C15_bootstrap_skew smallLayout (by decide) (by decide) (fun _ => 3) 3 (by decide)
    (fun _ => rfl) 0x88001 (by decide) bootState (fun _ _ => rfl)

/-- C16 at a concrete input: `kfree(0x87fff000)` then `kalloc`, both on core
2 of the pool bank before boot. -/
theorem C16_free_alloc_round_trip_witness :
    ∃ s1, kfree demoLayout 2 0x87fff000 bootState = Outcome.done s1 ∧
      (kalloc demoLayout 2 s1).1 = 0x87fff000 ∧
      Rep demoLayout (kalloc demoLayout 2 s1).2 (fun _ => []) ∧
      ∀ i, (kalloc demoLayout 2 s1).2.freelist i = bootState.freelist i :=
  C16_free_alloc_round_trip demoLayout (by decide) bootState (fun _ => []) 2 0x87fff000
    (rep_empty demoLayout bootState (fun _ _ => rfl)) (by decide) (by decide)
    (by rw [allFree_nil]; exact List.not_mem_nil _)

/-- C17 at a concrete input: the layout with two whole pages, whose kernel
ends off a page boundary. -/
theorem C17_accepted_equals_seeded_witness :
    ∃ (calls : List Nat) (s1 : Kmem),
      kinit smallLayout (fun _ => 0) 0x88001 bootState = some (calls, Outcome.done s1) ∧
      (∀ a, (a % PGSIZE = 0 ∧ smallLayout.kend ≤ a ∧ a < smallLayout.PHYSTOP) ↔ a ∈ calls) ∧
      ∀ a cid s', (kfree smallLayout cid a s').panicked = false ↔ a ∈ calls :=
  C17_accepted_equals_seeded smallLayout (by decide) (by decide) (fun _ => 0) 0x88001
    (by decide) bootState

/-- C19 at a concrete input: `freerange(0x87ffd001, 0x88000000)` on core 0 of
the pool bank before boot frees `0x87ffe000` then `0x87fff000` without
`panic`; pool 0 then holds `0x87fff000` before `0x87ffe000`, and two `kalloc`
calls on core 0 return them in that order. -/
theorem C19_bootstrap_order_witness :
    (∃ calls out, freerange demoLayout (fun _ => 0) 0x88001 0x87ffd001 0x88000000 bootState
        = some (calls, out) ∧
      (out.panicked = false →
        calls = (List.range ((0x88000000 - PGROUNDUP 0x87ffd001) / PGSIZE)).map
          (fun k => PGROUNDUP 0x87ffd001 + k * PGSIZE) ∧
        calls.length = (0x88000000 - PGROUNDUP 0x87ffd001) / PGSIZE ∧
        chain out.state.mem (out.state.freelist 0)
          ((List.range ((0x88000000 - PGROUNDUP 0x87ffd001) / PGSIZE)).map (fun k =>
            PGROUNDUP 0x87ffd001
              + ((0x88000000 - PGROUNDUP 0x87ffd001) / PGSIZE - 1 - k) * PGSIZE)) ∧
        ((List.range ((0x88000000 - PGROUNDUP 0x87ffd001) / PGSIZE)).map (fun k =>
            PGROUNDUP 0x87ffd001
              + ((0x88000000 - PGROUNDUP 0x87ffd001) / PGSIZE - 1 - k) * PGSIZE)).Pairwise
          (fun a b => b < a) ∧
        (kallocSeq demoLayout
            (List.replicate ((0x88000000 - PGROUNDUP 0x87ffd001) / PGSIZE) 0) out.state).1
          = (List.range ((0x88000000 - PGROUNDUP 0x87ffd001) / PGSIZE)).map (fun k =>
            PGROUNDUP 0x87ffd001
              + ((0x88000000 - PGROUNDUP 0x87ffd001) / PGSIZE - 1 - k) * PGSIZE))) ∧
    (freerange demoLayout (fun _ => 0) 0x88001 0x87ffd001 0x88000000 bootState).map
      (fun x => (x.1, x.2.panicked)) = some ([0x87ffe000, 0x87fff000], false) ∧
    (0x88000000 - PGROUNDUP 0x87ffd001) / PGSIZE = 2 ∧
    (List.range ((0x88000000 - PGROUNDUP 0x87ffd001) / PGSIZE)).map (fun k =>
        PGROUNDUP 0x87ffd001 + ((0x88000000 - PGROUNDUP 0x87ffd001) / PGSIZE - 1 - k) * PGSIZE)
      = [0x87fff000, 0x87ffe000] ∧
    (freerange demoLayout (fun _ => 0) 0x88001 0x87ffd001 0x88000000 bootState).map
      (fun x => (kallocSeq demoLayout [0, 0] x.2.state).1) = some [0x87fff000, 0x87ffe000] :=
  ⟨C19_bootstrap_order demoLayout (by decide) (fun _ => 0) 0 (by decide) (fun _ => rfl)
    0x88001 0x87ffd001 0x88000000 (by decide) bootState rfl,
    by decide, by decide, by decide, by decide⟩

end Kalloc
